import Mathlib

/-!
# http-tarpit: the connection-draining scheduler

A shallow embedding of `src/tarpit/tarpit.go`.

* Go's `int`, `int64` and `time.Duration` are 64-bit signed integers; they are
  modelled as `Int` with `wrap64` applied where the source does arithmetic.
* A `net.Conn` is modelled by a natural number naming the connection; what a
  `Write` on it returns is supplied by the environment as a `WriteResult`.
* Draws of the pseudo-random generator are supplied by the environment as raw
  natural numbers; `Int63n`, `Intn` and `Int31n` reduce them into their range,
  so every value the generator can return is covered.
* The worker goroutine `timer` is a step function on the ring state, driven by
  the events its `select` statement receives; everything it does to a
  connection is recorded as a list of `Effect`s.
-/

namespace HttpTarpit

/-! ## Machine integers -/

/-- Wrap-around of a mathematical integer into `int64` (two-complement). -/
def wrap64 (x : Int) : Int := (x + 2 ^ 63) % 2 ^ 64 - 2 ^ 63

/-- The largest `int64`. -/
def maxInt64 : Int := 2 ^ 63 - 1

/-- Division `/` of Go on 64-bit integers: truncation toward zero, then wrap-around. -/
def goDiv (a b : Int) : Int := wrap64 (Int.tdiv a b)

/-- The call `rand.Int63n(n)`: panics when `n <= 0`, otherwise a value in `[0, n)`. -/
def Int63n (raw : Nat) (n : Int) : Option Int :=
  if n ≤ 0 then none else some ((raw : Int) % n)

/-- The call `rand.Intn(n)`: panics when `n <= 0`, otherwise a value in `[0, n)`. -/
def Intn (raw : Nat) (n : Nat) : Option Nat :=
  if n = 0 then none else some (raw % n)

/-! ## Data model -/

/-- The struct `tarpitConn`: a connection and its remaining byte budget. -/
structure tarpitConn where
  conn : Nat
  remaining : Int
deriving DecidableEq, Repr

/-- The channel `toTimer`: its buffered handles and whether it was closed (the
capacity of 10000 only decides when a sender blocks and is left out). -/
structure Chan where
  buf : List tarpitConn
  closed : Bool
deriving DecidableEq, Repr

/-- The struct `Tarpit` (the generator `rng` is supplied by the environment). -/
structure Tarpit where
  contentType : String
  numTimeslices : Int
  timeslice : Int
  minResponseLen : Int
  maxResponseLen : Int
  toTimer : Chan
deriving DecidableEq, Repr

/-! ## `New` -/

/-- The loop `for i := 0; i < workers; i++ { go t.timer() }`: the number of
worker goroutines it starts. -/
def startWorkers (workers : Int) : Nat :=
  (List.range workers.toNat).foldl (fun started _ => started + 1) 0

/-- The function `New`: the returned pointer (`none` for `nil`) and the number
of worker goroutines started. -/
def New (workers : Int) (contentType : String)
    (period timeslice minResponseLen maxResponseLen : Int) : Option Tarpit × Nat :=
  if workers ≤ 0 ∨ contentType = "" ∨ timeslice ≤ 0 ∨ period < timeslice
      ∨ minResponseLen ≤ 0 ∨ maxResponseLen < minResponseLen then
    (none, 0)
  else
    (some
      { contentType := contentType
        numTimeslices := goDiv (wrap64 (wrap64 (period + timeslice) - 1)) timeslice
        timeslice := timeslice
        minResponseLen := minResponseLen
        maxResponseLen := maxResponseLen
        toTimer := { buf := [], closed := false } },
     startWorkers workers)

/-! ## `Handler` -/

/-- The bound `t.maxResponseLen-t.minResponseLen+1` passed to `Int63n`. -/
def lenBound (t : Tarpit) : Int :=
  wrap64 (wrap64 (t.maxResponseLen - t.minResponseLen) + 1)

/-- The value `responseLen` computed from the result `d` of the generator. -/
def responseLenOf (t : Tarpit) (d : Int) : Int :=
  wrap64 (d + t.minResponseLen)

/-- What `Handler` writes on the `http.ResponseWriter`. -/
structure Response where
  status : Nat
  contentType : String
  contentLength : String
deriving DecidableEq, Repr

/-- The method `Handler`: `raw` is the draw of the generator and `hijacked` the
connection returned by `hijack` (`none` when it reports failure); `hijack` is
declared outside `tarpit.go`, so its result is a parameter.  The result is
`none` when `Int63n` panics; otherwise the response head and the handle sent on
`toTimer`, if any. -/
def Handler (t : Tarpit) (raw : Nat) (hijacked : Option Nat) :
    Option (Response × Option tarpitConn) :=
  match Int63n raw (lenBound t) with
  | none => none
  | some d =>
    let responseLen := responseLenOf t d
    let resp : Response :=
      { status := 200, contentType := t.contentType, contentLength := toString responseLen }
    match hijacked with
    | none => some (resp, none)
    | some conn => some (resp, some { conn := conn, remaining := responseLen })

/-! ## `Close` -/

/-- The builtin `close` of Go on a channel: closing a closed channel panics. -/
def closeChan (c : Chan) : Option Chan :=
  if c.closed then none else some { c with closed := true }

/-- The method `Close`; `none` is a panic. -/
def Close (t : Tarpit) : Option Tarpit :=
  match closeChan t.toTimer with
  | none => none
  | some c => some { t with toTimer := c }

/-! ## The worker: `timer`, `writeConns`, `closeConns` -/

/-- The pair `(n, err)` returned by `conn.Write`; `err` is `true` for a non-nil error. -/
structure WriteResult where
  n : Int
  err : Bool
deriving DecidableEq, Repr

/-- What a worker does to a connection. -/
inductive Effect where
  | write (conn : Nat) (b : Nat) (res : WriteResult)
  | close (conn : Nat)
deriving DecidableEq, Repr

/-- The connection an effect acts on. -/
def Effect.conn : Effect → Nat
  | .write c _ _ => c
  | .close c => c

/-- The function `writeConns` on one bucket: the handles left in the list and
the effects performed, in order.  `wr` gives the result of the write on each
connection at this tick. -/
def writeConns (wr : Nat → WriteResult) (b : Nat) :
    List tarpitConn → List tarpitConn × List Effect
  | [] => ([], [])
  | tc :: rest =>
    let res := wr tc.conn
    let remaining := wrap64 (tc.remaining - 1)
    let r := writeConns wr b rest
    if remaining ≤ 0 ∨ res.n = 0 ∨ res.err = true then
      (r.1, Effect.write tc.conn b res :: Effect.close tc.conn :: r.2)
    else
      ({ tc with remaining := remaining } :: r.1, Effect.write tc.conn b res :: r.2)

/-- The function `closeConns` on one bucket. -/
def closeConns : List tarpitConn → List tarpitConn × List Effect
  | [] => ([], [])
  | tc :: rest =>
    let r := closeConns rest
    (r.1, Effect.close tc.conn :: r.2)

/-- The local state of `timer`: the slice `timeslices` and the cursor `nextslice`. -/
structure Worker where
  timeslices : List (List tarpitConn)
  nextslice : Nat
deriving DecidableEq, Repr

/-- What one iteration of the `select` in `timer` receives while the queue is open. -/
inductive Event where
  | arrival (tc : tarpitConn) (raw : Nat)
  | tick (raw : Nat) (wr : Nat → WriteResult)

/-- The start of `timer`: the ring of `numTimeslices` empty lists and the cursor
at 0.  `make` panics on a negative length and `Int63n` on a non-positive
timeslice. -/
def timerInit (t : Tarpit) (rawSleep : Nat) : Option Worker :=
  if t.numTimeslices < 0 then none
  else
    match Int63n rawSleep t.timeslice with
    | none => none
    | some _ => some { timeslices := List.replicate t.numTimeslices.toNat [], nextslice := 0 }

/-- The arrival case of the `select`: push the handle at the back of a random bucket. -/
def arrive (w : Worker) (tc : tarpitConn) (raw : Nat) : Option (Worker × List Effect) :=
  match Intn raw w.timeslices.length with
  | none => none
  | some i =>
    match w.timeslices[i]? with
    | none => none
    | some conns => some ({ w with timeslices := w.timeslices.set i (conns ++ [tc]) }, [])

/-- The tick case of the `select`; `none` is an index-out-of-range panic. -/
def tickStep (w : Worker) (raw : Nat) (wr : Nat → WriteResult) :
    Option (Worker × List Effect) :=
  match w.timeslices[w.nextslice]? with
  | none => none
  | some conns =>
    let b := raw % 95 + 32
    let r := writeConns wr b conns
    let next := w.nextslice + 1
    some ({ timeslices := w.timeslices.set w.nextslice r.1
            nextslice := if next ≥ w.timeslices.length then 0 else next }, r.2)

/-- One iteration of the loop of `timer`. -/
def step (w : Worker) : Event → Option (Worker × List Effect)
  | .arrival tc raw => arrive w tc raw
  | .tick raw wr => tickStep w raw wr

/-- The loop of `timer` over the events received while the queue is open. -/
def run : Worker → List Event → Option (Worker × List Effect)
  | w, [] => some (w, [])
  | w, e :: es =>
    match step w e with
    | none => none
    | some (w1, effs1) =>
      match run w1 es with
      | none => none
      | some (w2, effs2) => some (w2, effs1 ++ effs2)

/-- The loop `for slice := 0; slice < len(timeslices); slice++` after the queue closed. -/
def drainAll : List (List tarpitConn) → List (List tarpitConn) × List Effect
  | [] => ([], [])
  | conns :: rest =>
    let r := closeConns conns
    let rs := drainAll rest
    (r.1 :: rs.1, r.2 ++ rs.2)

/-- The part of `timer` after `break outer`. -/
def drain (w : Worker) : Worker × List Effect :=
  let r := drainAll w.timeslices
  ({ w with timeslices := r.1 }, r.2)

/-- A whole execution of `timer`: the queue is closed after the events `evs`. -/
def timer (t : Tarpit) (rawSleep : Nat) (evs : List Event) : Option (Worker × List Effect) :=
  match timerInit t rawSleep with
  | none => none
  | some w0 =>
    match run w0 evs with
    | none => none
    | some (w1, effs1) =>
      let r := drain w1
      some (r.1, effs1 ++ r.2)

/-! ## Observations on states, events and traces -/

/-- The connections of a list of handles. -/
def ids (l : List tarpitConn) : List Nat := l.map (fun tc => tc.conn)

/-- The handles resident in the ring, bucket after bucket. -/
def residents (w : Worker) : List tarpitConn := w.timeslices.flatten

/-- The handles received from the queue during `evs`. -/
def arrivals (evs : List Event) : List tarpitConn :=
  evs.filterMap (fun e => match e with
    | .arrival tc _ => some tc
    | .tick _ _ => none)

/-- The number of ticks among `evs`. -/
def ticks (evs : List Event) : Nat :=
  (evs.filterMap (fun e => match e with
    | .arrival _ _ => none
    | .tick raw _ => some raw)).length

/-- The connections closed by a trace, in order. -/
def closedConns (effs : List Effect) : List Nat :=
  effs.filterMap (fun e => match e with
    | .write _ _ _ => none
    | .close c => some c)

/-- The connections written to by a trace, in order. -/
def writtenConns (effs : List Effect) : List Nat :=
  effs.filterMap (fun e => match e with
    | .write c _ _ => some c
    | .close _ => none)

/-- The effects of a trace on connection `c`, in order: `some res` for a write
that returned `res`, `none` for a close. -/
def connTrace (c : Nat) (effs : List Effect) : List (Option WriteResult) :=
  effs.filterMap (fun e => match e with
    | .write c1 _ res => if c1 = c then some (some res) else none
    | .close c1 => if c1 = c then some none else none)

/-- The number of bytes transmitted by the writes in the trace of a connection. -/
def bytesOf (tr : List (Option WriteResult)) : Int :=
  (tr.map (fun o => match o with
    | some res => res.n
    | none => 0)).sum

/-- The number of bytes a trace wrote to connection `c`. -/
def bytesWritten (c : Nat) (effs : List Effect) : Int := bytesOf (connTrace c effs)

/-- A write failed: it transmitted zero bytes or returned an error. -/
def failed (res : WriteResult) : Bool := decide (res.n = 0) || res.err

/-- The bucket drained at each tick of `evs`, read off the states the loop goes through. -/
def drainedBuckets : Worker → List Event → List Nat
  | _, [] => []
  | w, e :: es =>
    match step w e with
    | none => []
    | some (w1, _) =>
      (match e with
        | .arrival _ _ => []
        | .tick _ _ => [w.nextslice]) ++ drainedBuckets w1 es

/-- The results of the writes on connection `c` at those ticks of `evs` that
drain bucket `i`, for a ring of `n` buckets whose cursor starts at `s`. -/
def outcomes (n i c : Nat) : Nat → List Event → List WriteResult
  | _, [] => []
  | s, .arrival _ _ :: es => outcomes n i c s es
  | s, .tick _ wr :: es =>
    (if s = i then [wr c] else []) ++ outcomes n i c (if s + 1 ≥ n then 0 else s + 1) es

/-- A tick on which every write succeeds, transmitting its one byte. -/
def okTick (raw : Nat) : Event := Event.tick raw (fun _ => { n := 1, err := false })

/-- The occurrences of connection `c` in each bucket of a ring. -/
def view (c : Nat) (ts : List (List tarpitConn)) : List (List tarpitConn) :=
  ts.map (List.filter (fun x => decide (x.conn = c)))

/-- The bucket content standing for a connection `c` that is resident with the
given budget (`some`), or not resident (`none`). -/
def cell (c : Nat) : Option Int → List tarpitConn
  | none => []
  | some rem => [{ conn := c, remaining := rem }]

/-- The trace of a resident connection with budget `rem` over the successive
drains of its bucket, the writes returning `os`. -/
def lifeTrace : Int → List WriteResult → List (Option WriteResult)
  | _, [] => []
  | rem, o :: os =>
    some o :: (if rem - 1 ≤ 0 ∨ o.n = 0 ∨ o.err = true then [none] else lifeTrace (rem - 1) os)

/-- The trace of a connection from its state and the results of the writes at
the drains of its bucket. -/
def lifeOf : Option Int → List WriteResult → List (Option WriteResult)
  | none, _ => []
  | some rem, os => lifeTrace rem os

/-- The drain, counted from 1, at which a connection admitted with budget `R`
is closed when the writes at the successive drains of its bucket return `os`:
the drain that exhausts the budget or the first one whose write failed,
whichever comes first. -/
def closeAt (R : Int) (os : List WriteResult) : Nat :=
  min R.toNat (os.findIdx failed + 1)

/-! ## Sample values -/

/-- A tick on which every write fails with an error, transmitting nothing. -/
def failTick (raw : Nat) : Event := Event.tick raw (fun _ => { n := 0, err := true })

/-- The `Tarpit` built by `New 2 "text/html" 1s 100ms 3 7`. -/
def sampleTarpit : Tarpit :=
  { contentType := "text/html", numTimeslices := 10, timeslice := 100000000,
    minResponseLen := 3, maxResponseLen := 7, toTimer := { buf := [], closed := false } }

/-- The `Tarpit` of Scenario B, built by `New 1 "text/html" 1s 100ms 5 5`. -/
def scenarioTarpit : Tarpit :=
  { contentType := "text/html", numTimeslices := 10, timeslice := 100000000,
    minResponseLen := 5, maxResponseLen := 5, toTimer := { buf := [], closed := false } }

/-- The ring of ten empty buckets with which `timer` starts for these. -/
def emptyRing : Worker := { timeslices := List.replicate 10 [], nextslice := 0 }

/-- A ring of two buckets, one handle resident, the cursor on the second bucket. -/
def sampleRing : Worker :=
  { timeslices := [[], [{ conn := 3, remaining := 4 }]], nextslice := 1 }

/-- Three arrivals and two ticks: the first tick writes to connection 1, the
second fails to write to connection 2. -/
def sampleEvents : List Event :=
  [Event.arrival { conn := 1, remaining := 5 } 0, okTick 0,
   Event.arrival { conn := 2, remaining := 4 } 1, failTick 0,
   Event.arrival { conn := 3, remaining := 3 } 5]

/-- The same events followed by 25 ticks. -/
def longEvents : List Event := sampleEvents ++ (List.replicate 25 0).map okTick


/-! ## Machine arithmetic and `New` -/

theorem wrap64_of_range {x : Int} (h1 : -(2 ^ 63) ≤ x) (h2 : x < 2 ^ 63) : wrap64 x = x := by
  unfold wrap64
  omega

theorem foldl_count (l : List Nat) (a : Nat) :
    l.foldl (fun started _ => started + 1) a = a + l.length := by
  induction l generalizing a with
  | nil => simp
  | cons x xs ih => simp [List.foldl, ih]; omega

theorem startWorkers_eq (workers : Int) : startWorkers workers = workers.toNat := by
  simp [startWorkers, foldl_count]

theorem New_eq_some {workers : Int} {contentType : String}
    {period timeslice minResponseLen maxResponseLen : Int} {t : Tarpit} {k : Nat}
    (h : New workers contentType period timeslice minResponseLen maxResponseLen = (some t, k)) :
    (0 < workers ∧ contentType ≠ "" ∧ 0 < timeslice ∧ timeslice ≤ period
      ∧ 0 < minResponseLen ∧ minResponseLen ≤ maxResponseLen) ∧
    t = { contentType := contentType
          numTimeslices := goDiv (wrap64 (wrap64 (period + timeslice) - 1)) timeslice
          timeslice := timeslice
          minResponseLen := minResponseLen
          maxResponseLen := maxResponseLen
          toTimer := { buf := [], closed := false } } ∧
    k = workers.toNat := by
  unfold New at h
  split_ifs at h with hv
  · simp at h
  simp only [not_or, not_le, not_lt] at hv
  simp only [Prod.mk.injEq, Option.some.injEq] at h
  refine ⟨⟨hv.1, hv.2.1, hv.2.2.1, hv.2.2.2.1, hv.2.2.2.2.1, hv.2.2.2.2.2⟩, h.1.symm, ?_⟩
  rw [← h.2, startWorkers_eq]

theorem numTimeslices_no_overflow (period timeslice : Int)
    (hts : 0 < timeslice) (hp : timeslice ≤ period) (hsum : period + timeslice - 1 ≤ maxInt64) :
    goDiv (wrap64 (wrap64 (period + timeslice) - 1)) timeslice = ⌈(period : ℚ) / timeslice⌉ ∧
    1 ≤ goDiv (wrap64 (wrap64 (period + timeslice) - 1)) timeslice := by
  unfold maxInt64 at hsum
  have h2 : wrap64 (wrap64 (period + timeslice) - 1) = period + timeslice - 1 := by
    unfold wrap64
    omega
  rw [h2]
  unfold goDiv
  have hnn : 0 ≤ period + timeslice - 1 := by omega
  have hdiv : Int.tdiv (period + timeslice - 1) timeslice = (period + timeslice - 1) / timeslice :=
    Int.tdiv_eq_ediv hnn (by omega)
  rw [hdiv]
  have hq1 : 1 ≤ (period + timeslice - 1) / timeslice := by
    rw [Int.le_ediv_iff_mul_le hts]; omega
  have hq2 : (period + timeslice - 1) / timeslice ≤ period + timeslice - 1 :=
    Int.ediv_le_self _ hnn
  have h3 : wrap64 ((period + timeslice - 1) / timeslice) = (period + timeslice - 1) / timeslice :=
    wrap64_of_range (by omega) (by omega)
  rw [h3]
  refine ⟨?_, hq1⟩
  symm
  rw [Int.ceil_eq_iff]
  have htq : (0 : ℚ) < timeslice := by exact_mod_cast hts
  set q := (period + timeslice - 1) / timeslice with hq
  have hlo : q * timeslice ≤ period + timeslice - 1 := Int.ediv_mul_le _ (by omega)
  have hhi : period + timeslice - 1 < (q + 1) * timeslice := by
    have := Int.lt_ediv_add_one_mul_self (period + timeslice - 1) hts
    simpa [hq] using this
  constructor
  · rw [lt_div_iff₀ htq]
    have : (q - 1) * timeslice < period := by nlinarith
    exact_mod_cast this
  · rw [div_le_iff₀ htq]
    have : period ≤ q * timeslice := by nlinarith
    exact_mod_cast this


/-! ## `writeConns` and `closeConns` on one bucket -/

theorem writeConns_written (wr : Nat → WriteResult) (b : Nat) (l : List tarpitConn) :
    writtenConns (writeConns wr b l).2 = ids l := by
  induction l with
  | nil => rfl
  | cons x xs ih =>
    simp only [writeConns, ids, List.map_cons] at ih ⊢
    split_ifs <;> simp [writtenConns] at ih ⊢ <;> exact ih

theorem writeConns_conn_mem (wr : Nat → WriteResult) (b : Nat) (l : List tarpitConn) :
    ∀ e ∈ (writeConns wr b l).2, e.conn ∈ ids l := by
  induction l with
  | nil => simp [writeConns]
  | cons x xs ih =>
    intro e he
    simp only [writeConns] at he
    simp only [ids, List.map_cons, List.mem_cons] at ih ⊢
    split_ifs at he
    · simp only [List.mem_cons] at he
      rcases he with rfl | rfl | he
      · exact Or.inl rfl
      · exact Or.inl rfl
      · exact Or.inr (ih e he)
    · simp only [List.mem_cons] at he
      rcases he with rfl | he
      · exact Or.inl rfl
      · exact Or.inr (ih e he)

theorem writeConns_perm (wr : Nat → WriteResult) (b : Nat) (l : List tarpitConn) :
    (closedConns (writeConns wr b l).2 ++ ids (writeConns wr b l).1).Perm (ids l) := by
  induction l with
  | nil => simp [writeConns, closedConns, ids]
  | cons x xs ih =>
    simp only [writeConns]
    split_ifs
    · simpa [closedConns, ids] using ih
    · have h : (closedConns (writeConns wr b xs).2 ++ x.conn :: ids (writeConns wr b xs).1).Perm
          (x.conn :: ids xs) :=
        List.perm_middle.trans (List.Perm.cons _ ih)
      simpa [closedConns, ids] using h

theorem writeConns_pos (wr : Nat → WriteResult) (b : Nat) (l : List tarpitConn) :
    ∀ x ∈ (writeConns wr b l).1, 0 < x.remaining ∧ x.remaining < 2 ^ 63 := by
  induction l with
  | nil => simp [writeConns]
  | cons x xs ih =>
    intro y hy
    simp only [writeConns] at hy
    split_ifs at hy with hc
    · exact ih y hy
    · simp only [List.mem_cons] at hy
      rcases hy with rfl | hy
      · simp only [not_or, not_le] at hc
        refine ⟨hc.1, ?_⟩
        show wrap64 (x.remaining - 1) < 2 ^ 63
        unfold wrap64
        omega
      · exact ih y hy

theorem writeConns_kept_mem (wr : Nat → WriteResult) (b : Nat) (l : List tarpitConn)
    (y : tarpitConn) :
    y ∈ (writeConns wr b l).1 ↔
      ∃ x ∈ l, ¬ (wrap64 (x.remaining - 1) ≤ 0 ∨ (wr x.conn).n = 0 ∨ (wr x.conn).err = true) ∧
        y = { conn := x.conn, remaining := wrap64 (x.remaining - 1) } := by
  induction l with
  | nil => simp [writeConns]
  | cons x xs ih =>
    simp only [writeConns]
    split_ifs with hc
    · rw [ih]
      constructor
      · rintro ⟨z, hz, h1, h2⟩
        exact ⟨z, List.mem_cons_of_mem _ hz, h1, h2⟩
      · rintro ⟨z, hz, h1, h2⟩
        rcases List.mem_cons.mp hz with rfl | hz
        · exact absurd hc h1
        · exact ⟨z, hz, h1, h2⟩
    · rw [List.mem_cons, ih]
      constructor
      · rintro (rfl | ⟨z, hz, h1, h2⟩)
        · exact ⟨x, List.mem_cons_self _ _, hc, rfl⟩
        · exact ⟨z, List.mem_cons_of_mem _ hz, h1, h2⟩
      · rintro ⟨z, hz, h1, h2⟩
        rcases List.mem_cons.mp hz with rfl | hz
        · exact Or.inl h2
        · exact Or.inr ⟨z, hz, h1, h2⟩

theorem writeConns_removed_iff (wr : Nat → WriteResult) (b : Nat) (l : List tarpitConn)
    (hnd : (ids l).Nodup) (x : tarpitConn) (hx : x ∈ l) :
    x.conn ∉ ids (writeConns wr b l).1 ↔
      (wrap64 (x.remaining - 1) ≤ 0 ∨ (wr x.conn).n = 0 ∨ (wr x.conn).err = true) := by
  have hinj : ∀ z ∈ l, z.conn = x.conn → z = x := by
    intro z hz hzx
    exact List.inj_on_of_nodup_map hnd hz hx hzx
  constructor
  · intro hnot
    by_contra hc
    apply hnot
    simp only [ids, List.mem_map]
    exact ⟨{ conn := x.conn, remaining := wrap64 (x.remaining - 1) },
      (writeConns_kept_mem wr b l _).mpr ⟨x, hx, hc, rfl⟩, rfl⟩
  · intro hc hmem
    simp only [ids, List.mem_map] at hmem
    obtain ⟨y, hy, hyx⟩ := hmem
    obtain ⟨z, hz, hzc, rfl⟩ := (writeConns_kept_mem wr b l y).mp hy
    have := hinj z hz hyx
    subst this
    exact hzc hc

theorem closeConns_eq (l : List tarpitConn) :
    closeConns l = ([], l.map (fun tc => Effect.close tc.conn)) := by
  induction l with
  | nil => rfl
  | cons x xs ih => simp [closeConns, ih]

/-! ## The ring: one step of the loop -/

theorem flatten_split {α : Type} (ts : List (List α)) (i : Nat) (b : List α)
    (h : ts[i]? = some b) :
    ∃ A B, ts.flatten = A ++ b ++ B ∧ ∀ x, (ts.set i x).flatten = A ++ x ++ B := by
  induction ts generalizing i with
  | nil => simp at h
  | cons t ts ih =>
    cases i with
    | zero =>
      simp only [List.getElem?_cons_zero, Option.some.injEq] at h
      subst h
      exact ⟨[], ts.flatten, by simp, fun x => by simp⟩
    | succ j =>
      simp only [List.getElem?_cons_succ] at h
      obtain ⟨A, B, h1, h2⟩ := ih j h
      refine ⟨t ++ A, B, ?_, fun x => ?_⟩
      · simp [h1]
      · simp [h2 x]

theorem tickStep_eq (w : Worker) (raw : Nat) (wr : Nat → WriteResult)
    (h : w.nextslice < w.timeslices.length) :
    ∃ conns, w.timeslices[w.nextslice]? = some conns ∧
      tickStep w raw wr =
        some ({ timeslices := w.timeslices.set w.nextslice (writeConns wr (raw % 95 + 32) conns).1
                nextslice := if w.nextslice + 1 ≥ w.timeslices.length then 0
                             else w.nextslice + 1 },
              (writeConns wr (raw % 95 + 32) conns).2) := by
  refine ⟨w.timeslices[w.nextslice], List.getElem?_eq_getElem h, ?_⟩
  simp [tickStep, List.getElem?_eq_getElem h]

theorem arrive_eq (w : Worker) (tc : tarpitConn) (raw : Nat) (h : 0 < w.timeslices.length) :
    ∃ conns, w.timeslices[raw % w.timeslices.length]? = some conns ∧
      arrive w tc raw =
        some ({ timeslices := w.timeslices.set (raw % w.timeslices.length) (conns ++ [tc])
                nextslice := w.nextslice }, []) := by
  have hi : raw % w.timeslices.length < w.timeslices.length := Nat.mod_lt _ h
  refine ⟨w.timeslices[raw % w.timeslices.length], List.getElem?_eq_getElem hi, ?_⟩
  simp [arrive, Intn, Nat.pos_iff_ne_zero.mp h, List.getElem?_eq_getElem hi]

theorem step_total (w : Worker) (e : Event) (h : w.nextslice < w.timeslices.length) :
    ∃ w1 effs, step w e = some (w1, effs) ∧ w1.timeslices.length = w.timeslices.length ∧
      w1.nextslice < w1.timeslices.length ∧
      w1.nextslice = (w.nextslice + ticks [e]) % w.timeslices.length := by
  cases e with
  | arrival tc raw =>
    obtain ⟨conns, _, h2⟩ := arrive_eq w tc raw (by omega)
    refine ⟨_, _, h2, by simp, by simpa using h, ?_⟩
    simp [ticks, Nat.mod_eq_of_lt h]
  | tick raw wr =>
    obtain ⟨conns, _, h2⟩ := tickStep_eq w raw wr h
    refine ⟨_, _, h2, by simp, ?_, ?_⟩
    · simp only [List.length_set]
      split_ifs <;> omega
    · simp only [ticks, List.filterMap_cons, List.filterMap_nil, List.length_singleton]
      split_ifs with hc
      · have : w.nextslice + 1 = w.timeslices.length := by omega
        rw [this, Nat.mod_self]
      · rw [Nat.mod_eq_of_lt (by omega)]

theorem ticks_cons (e : Event) (es : List Event) : ticks (e :: es) = ticks [e] + ticks es := by
  cases e <;> simp [ticks]
  omega

theorem run_total (evs : List Event) (w : Worker) (h : w.nextslice < w.timeslices.length) :
    ∃ w1 effs, run w evs = some (w1, effs) ∧ w1.timeslices.length = w.timeslices.length ∧
      w1.nextslice < w1.timeslices.length ∧
      w1.nextslice = (w.nextslice + ticks evs) % w.timeslices.length := by
  induction evs generalizing w with
  | nil => exact ⟨w, [], rfl, rfl, h, by simp [ticks, Nat.mod_eq_of_lt h]⟩
  | cons e es ih =>
    obtain ⟨w1, effs1, h1, hl1, hc1, hn1⟩ := step_total w e h
    obtain ⟨w2, effs2, h2, hl2, hc2, hn2⟩ := ih w1 hc1
    refine ⟨w2, effs1 ++ effs2, by simp [run, h1, h2], by omega, hc2, ?_⟩
    rw [hn2, hn1, hl1, Nat.mod_add_mod, Nat.add_assoc, ← ticks_cons]

/-! ## Invariants of the loop -/

theorem tickStep_some (w : Worker) (raw : Nat) (wr : Nat → WriteResult)
    (r : Worker × List Effect) (h : tickStep w raw wr = some r) :
    w.nextslice < w.timeslices.length := by
  by_contra hc
  have : w.timeslices[w.nextslice]? = none := List.getElem?_eq_none (by omega)
  simp [tickStep, this] at h

theorem arrive_some (w : Worker) (tc : tarpitConn) (raw : Nat)
    (r : Worker × List Effect) (h : arrive w tc raw = some r) :
    0 < w.timeslices.length := by
  by_contra hc
  have : w.timeslices.length = 0 := by omega
  simp [arrive, Intn, this] at h

theorem step_perm (w : Worker) (e : Event) (w1 : Worker) (effs : List Effect)
    (h : step w e = some (w1, effs)) :
    (closedConns effs ++ ids (residents w1)).Perm (ids (residents w) ++ ids (arrivals [e])) := by
  cases e with
  | arrival tc raw =>
    simp only [step] at h
    obtain ⟨conns, hc, heq⟩ := arrive_eq w tc raw (arrive_some w tc raw _ h)
    rw [heq] at h
    simp only [Option.some.injEq, Prod.mk.injEq] at h
    obtain ⟨rfl, rfl⟩ := h
    obtain ⟨A, B, h1, h2⟩ := flatten_split w.timeslices _ conns hc
    simp only [residents, h1, h2, closedConns, arrivals, ids, List.filterMap_nil,
      List.nil_append, List.map_append, List.filterMap_cons, List.map_cons, List.map_nil,
      List.append_assoc]
    refine List.Perm.append_left _ (List.Perm.append_left _ ?_)
    exact List.perm_append_comm
  | tick raw wr =>
    simp only [step] at h
    obtain ⟨conns, hc, heq⟩ := tickStep_eq w raw wr (tickStep_some w raw wr _ h)
    rw [heq] at h
    simp only [Option.some.injEq, Prod.mk.injEq] at h
    obtain ⟨rfl, rfl⟩ := h
    obtain ⟨A, B, h1, h2⟩ := flatten_split w.timeslices _ conns hc
    have hp := writeConns_perm wr (raw % 95 + 32) conns
    simp only [residents, h1, h2, arrivals, List.filterMap_cons, List.filterMap_nil]
    simp only [ids, List.map_append, List.map_nil, List.append_nil, List.append_assoc] at hp ⊢
    refine (List.perm_append_comm_assoc _ _ _).trans (List.Perm.append_left _ ?_)
    rw [← List.append_assoc]
    exact List.Perm.append_right _ hp

theorem arrivals_cons (e : Event) (es : List Event) :
    arrivals (e :: es) = arrivals [e] ++ arrivals es := by
  cases e <;> simp [arrivals]

theorem run_cons_some (w : Worker) (e : Event) (es : List Event) (w2 : Worker)
    (effs : List Effect) (h : run w (e :: es) = some (w2, effs)) :
    ∃ w1 effs1 effs2, step w e = some (w1, effs1) ∧ run w1 es = some (w2, effs2) ∧
      effs = effs1 ++ effs2 := by
  simp only [run] at h
  cases hs : step w e with
  | none => simp [hs] at h
  | some r1 =>
    obtain ⟨w1, effs1⟩ := r1
    simp only [hs] at h
    cases hr : run w1 es with
    | none => simp [hr] at h
    | some r2 =>
      obtain ⟨w3, effs2⟩ := r2
      simp only [hr, Option.some.injEq, Prod.mk.injEq] at h
      obtain ⟨rfl, rfl⟩ := h
      exact ⟨w1, effs1, effs2, rfl, hr, rfl⟩

theorem run_perm (evs : List Event) (w w1 : Worker) (effs : List Effect)
    (h : run w evs = some (w1, effs)) :
    (closedConns effs ++ ids (residents w1)).Perm (ids (residents w) ++ ids (arrivals evs)) := by
  induction evs generalizing w effs with
  | nil =>
    simp only [run, Option.some.injEq, Prod.mk.injEq] at h
    obtain ⟨rfl, rfl⟩ := h
    simp [closedConns, arrivals, ids]
  | cons e es ih =>
    obtain ⟨wm, effs1, effs2, hs, hr, rfl⟩ := run_cons_some w e es w1 effs h
    have p1 := step_perm w e wm effs1 hs
    have p2 := ih wm effs2 hr
    rw [arrivals_cons]
    simp only [closedConns, List.filterMap_append, ids, List.map_append, List.append_assoc]
      at p1 p2 ⊢
    -- closed1 ++ (closed2 ++ res1) ~ closed1 ++ (resm ++ arr es) ~ (closed1 ++ resm) ++ arr es
    refine (List.Perm.append_left _ p2).trans ?_
    rw [← List.append_assoc, ← List.append_assoc]
    exact List.Perm.append_right _ p1

theorem step_pos (w : Worker) (e : Event) (w1 : Worker) (effs : List Effect)
    (h : step w e = some (w1, effs))
    (hw : ∀ x ∈ residents w, 0 < x.remaining ∧ x.remaining < 2 ^ 63)
    (he : ∀ x ∈ arrivals [e], 0 < x.remaining ∧ x.remaining < 2 ^ 63) :
    ∀ x ∈ residents w1, 0 < x.remaining ∧ x.remaining < 2 ^ 63 := by
  cases e with
  | arrival tc raw =>
    simp only [step] at h
    obtain ⟨conns, hc, heq⟩ := arrive_eq w tc raw (arrive_some w tc raw _ h)
    rw [heq] at h
    simp only [Option.some.injEq, Prod.mk.injEq] at h
    obtain ⟨rfl, rfl⟩ := h
    obtain ⟨A, B, h1, h2⟩ := flatten_split w.timeslices _ conns hc
    simp only [residents, h1, h2] at hw ⊢
    intro x hx
    simp only [List.mem_append, List.mem_singleton] at hx hw
    rcases hx with (hx | hx | rfl) | hx
    · exact hw x (Or.inl (Or.inl hx))
    · exact hw x (Or.inl (Or.inr hx))
    · exact he x (by simp [arrivals])
    · exact hw x (Or.inr hx)
  | tick raw wr =>
    simp only [step] at h
    obtain ⟨conns, hc, heq⟩ := tickStep_eq w raw wr (tickStep_some w raw wr _ h)
    rw [heq] at h
    simp only [Option.some.injEq, Prod.mk.injEq] at h
    obtain ⟨rfl, rfl⟩ := h
    obtain ⟨A, B, h1, h2⟩ := flatten_split w.timeslices _ conns hc
    simp only [residents, h1, h2] at hw ⊢
    intro x hx
    simp only [List.mem_append] at hx hw
    rcases hx with (hx | hx) | hx
    · exact hw x (Or.inl (Or.inl hx))
    · exact writeConns_pos wr _ conns x hx
    · exact hw x (Or.inr hx)

theorem run_pos (evs : List Event) (w w1 : Worker) (effs : List Effect)
    (h : run w evs = some (w1, effs))
    (hw : ∀ x ∈ residents w, 0 < x.remaining ∧ x.remaining < 2 ^ 63)
    (he : ∀ x ∈ arrivals evs, 0 < x.remaining ∧ x.remaining < 2 ^ 63) :
    ∀ x ∈ residents w1, 0 < x.remaining ∧ x.remaining < 2 ^ 63 := by
  induction evs generalizing w effs with
  | nil =>
    simp only [run, Option.some.injEq, Prod.mk.injEq] at h
    obtain ⟨rfl, rfl⟩ := h
    exact hw
  | cons e es ih =>
    obtain ⟨wm, effs1, effs2, hs, hr, rfl⟩ := run_cons_some w e es w1 effs h
    rw [arrivals_cons] at he
    have hm := step_pos w e wm effs1 hs hw (fun x hx => he x (List.mem_append_left _ hx))
    exact ih wm effs2 hr hm (fun x hx => he x (List.mem_append_right _ hx))

theorem bucket_disjoint (ts : List (List tarpitConn)) (hnd : (ids ts.flatten).Nodup)
    (i j : Nat) (hij : i ≠ j) (bi bj : List tarpitConn)
    (hi : ts[i]? = some bi) (hj : ts[j]? = some bj) :
    ∀ x ∈ bi, ∀ y ∈ bj, x.conn ≠ y.conn := by
  obtain ⟨A, B, h1, h2⟩ := flatten_split ts i bi hi
  have hj2 : (ts.set i [])[j]? = some bj := by rw [List.getElem?_set_ne hij]; exact hj
  have hsub : ∀ y ∈ bj, y ∈ A ++ B := by
    intro y hy
    have : y ∈ (ts.set i []).flatten := List.mem_flatten.mpr ⟨bj, List.getElem?_mem hj2, hy⟩
    simpa [h2] using this
  intro x hx y hy hxy
  rw [h1] at hnd
  simp only [ids, List.map_append] at hnd
  have hy2 := hsub y hy
  have hxm : x.conn ∈ List.map (fun tc => tc.conn) bi := List.mem_map.mpr ⟨x, hx, rfl⟩
  rw [List.mem_append] at hy2
  rcases hy2 with hy2 | hy2
  · have hym : x.conn ∈ List.map (fun tc => tc.conn) A := List.mem_map.mpr ⟨y, hy2, hxy.symm⟩
    have hd := (List.nodup_append.mp (List.nodup_append.mp hnd).1).2.2
    exact hd hym hxm
  · have hym : x.conn ∈ List.map (fun tc => tc.conn) B := List.mem_map.mpr ⟨y, hy2, hxy.symm⟩
    have hd := (List.nodup_append.mp hnd).2.2
    exact hd (List.mem_append_right _ hxm) hym

/-! ## One connection seen through the ring -/

theorem connTrace_append (c : Nat) (e1 e2 : List Effect) :
    connTrace c (e1 ++ e2) = connTrace c e1 ++ connTrace c e2 := by
  simp [connTrace, List.filterMap_append]

theorem connTrace_write (c c1 b : Nat) (res : WriteResult) (es : List Effect) :
    connTrace c (Effect.write c1 b res :: es)
      = if c1 = c then some res :: connTrace c es else connTrace c es := by
  by_cases h : c1 = c <;> simp [connTrace, h]

theorem connTrace_close (c c1 : Nat) (es : List Effect) :
    connTrace c (Effect.close c1 :: es)
      = if c1 = c then none :: connTrace c es else connTrace c es := by
  by_cases h : c1 = c <;> simp [connTrace, h]

theorem writeConns_filter (c : Nat) (wr : Nat → WriteResult) (b : Nat) (l : List tarpitConn) :
    (writeConns wr b (l.filter (fun x => decide (x.conn = c)))).1
        = (writeConns wr b l).1.filter (fun x => decide (x.conn = c)) ∧
    connTrace c (writeConns wr b (l.filter (fun x => decide (x.conn = c)))).2
        = connTrace c (writeConns wr b l).2 := by
  induction l with
  | nil => simp [writeConns]
  | cons x xs ih =>
    by_cases hx : x.conn = c
    · have hfc : (x :: xs).filter (fun x => decide (x.conn = c))
          = x :: xs.filter (fun x => decide (x.conn = c)) := by
        simp [List.filter_cons, hx]
      rw [hfc]
      by_cases hg : wrap64 (x.remaining - 1) ≤ 0 ∨ (wr x.conn).n = 0 ∨ (wr x.conn).err = true
      · simp only [writeConns, if_pos hg, connTrace_write, connTrace_close, ih.2]
        exact ⟨ih.1, trivial⟩
      · simp only [writeConns, if_neg hg, connTrace_write, ih.2]
        refine ⟨?_, trivial⟩
        simp [List.filter_cons, hx, ih.1]
    · have hfc : (x :: xs).filter (fun x => decide (x.conn = c))
          = xs.filter (fun x => decide (x.conn = c)) := by
        simp [List.filter_cons, hx]
      rw [hfc]
      by_cases hg : wrap64 (x.remaining - 1) ≤ 0 ∨ (wr x.conn).n = 0 ∨ (wr x.conn).err = true
      · simp only [writeConns, if_pos hg, connTrace_write, connTrace_close, if_neg hx]
        exact ih
      · simp only [writeConns, if_neg hg, connTrace_write, if_neg hx]
        refine ⟨?_, ih.2⟩
        simp [List.filter_cons, hx, ih.1]

theorem set_self {α : Type} (l : List α) (k : Nat) (x : α) (h : l[k]? = some x) :
    l.set k x = l := by
  apply List.ext_getElem?
  intro j
  by_cases hj : k = j
  · subst hj
    obtain ⟨hk, _⟩ := List.getElem?_eq_some.mp h
    rw [List.getElem?_set_self hk, h]
  · rw [List.getElem?_set_ne hj]

theorem view_bucket (c : Nat) (ts : List (List tarpitConn)) (k : Nat) (conns : List tarpitConn)
    (h : ts[k]? = some conns) :
    (view c ts)[k]? = some (conns.filter (fun x => decide (x.conn = c))) := by
  simp [view, List.getElem?_map, h]

theorem cell_bucket (c n i k : Nat) (st : Option Int) (hi : i < n) (hk : k < n) :
    ((List.replicate n ([] : List tarpitConn)).set i (cell c st))[k]?
      = some (if i = k then cell c st else []) := by
  by_cases hik : i = k
  · subst hik
    rw [List.getElem?_set_self (by simpa using hi), if_pos rfl]
  · rw [List.getElem?_set_ne hik, List.getElem?_replicate, if_pos hk, if_neg hik]

theorem run_conn (c i n : Nat) (post : List Event) :
    ∀ (w : Worker) (st : Option Int),
      w.timeslices.length = n → w.nextslice < n → i < n →
      view c w.timeslices = (List.replicate n []).set i (cell c st) →
      (∀ rem, st = some rem → 0 < rem ∧ rem < 2 ^ 63) →
      c ∉ ids (arrivals post) →
      ∃ w1 effs, run w post = some (w1, effs) ∧
        connTrace c effs = lifeOf st (outcomes n i c w.nextslice post) := by
  induction post with
  | nil =>
    intro w st _ _ _ _ _ _
    refine ⟨w, [], rfl, ?_⟩
    cases st <;> simp [connTrace, lifeOf, outcomes, lifeTrace]
  | cons e es ih =>
    intro w st hlen hcur hi hview hst hfresh
    rw [arrivals_cons] at hfresh
    simp only [ids, List.map_append, List.mem_append, not_or] at hfresh
    have hfresh2 : c ∉ ids (arrivals es) := hfresh.2
    cases e with
    | arrival tc raw =>
      have htc : tc.conn ≠ c := by
        intro hc
        apply hfresh.1
        simp [arrivals, hc]
      obtain ⟨conns, hc, heq⟩ := arrive_eq w tc raw (by omega)
      have hfl : (conns ++ [tc]).filter (fun x => decide (x.conn = c))
          = conns.filter (fun x => decide (x.conn = c)) := by
        simp [List.filter_append, List.filter_cons, htc]
      have hv : view c (w.timeslices.set (raw % w.timeslices.length) (conns ++ [tc]))
          = view c w.timeslices := by
        have h1 : view c (w.timeslices.set (raw % w.timeslices.length) (conns ++ [tc]))
            = (view c w.timeslices).set (raw % w.timeslices.length)
                ((conns ++ [tc]).filter (fun x => decide (x.conn = c))) := by
          simp only [view, List.map_set]
        rw [h1, hfl]
        exact set_self _ _ _ (view_bucket c _ _ _ hc)
      obtain ⟨w2, effs2, hr, ht⟩ := ih
        { timeslices := w.timeslices.set (raw % w.timeslices.length) (conns ++ [tc])
          nextslice := w.nextslice } st (by simpa using hlen) hcur hi
        (by rw [hv]; exact hview) hst hfresh2
      refine ⟨w2, [] ++ effs2, by simp [run, step, heq, hr], ?_⟩
      simpa [outcomes] using ht
    | tick raw wr =>
      obtain ⟨conns, hc, heq⟩ := tickStep_eq w raw wr (by omega)
      have hf := writeConns_filter c wr (raw % 95 + 32) conns
      have hvs := view_bucket c _ _ _ hc
      have hcell : conns.filter (fun x => decide (x.conn = c))
          = if i = w.nextslice then cell c st else [] := by
        rw [hview, cell_bucket c n i w.nextslice st hi hcur] at hvs
        exact (Option.some.inj hvs).symm
      have hv1 : view c (w.timeslices.set w.nextslice (writeConns wr (raw % 95 + 32) conns).1)
          = (view c w.timeslices).set w.nextslice
              (writeConns wr (raw % 95 + 32) (conns.filter (fun x => decide (x.conn = c)))).1 := by
        simp only [view, List.map_set, hf.1]
      have hnext : (if w.nextslice + 1 ≥ w.timeslices.length then 0 else w.nextslice + 1) < n := by
        split_ifs <;> omega
      have hrun : ∀ w2 effs2,
          run { timeslices := w.timeslices.set w.nextslice
                  (writeConns wr (raw % 95 + 32) conns).1
                nextslice := if w.nextslice + 1 ≥ w.timeslices.length then 0
                             else w.nextslice + 1 } es = some (w2, effs2) →
          run w (Event.tick raw wr :: es)
            = some (w2, (writeConns wr (raw % 95 + 32) conns).2 ++ effs2) := by
        intro w2 effs2 hr
        simp [run, step, heq, hr]
      by_cases his : i = w.nextslice
      · rw [if_pos his] at hcell
        cases st with
        | none =>
          simp only [cell] at hcell
          rw [hcell] at hv1 hf hvs
          simp only [writeConns] at hv1 hf
          rw [set_self _ _ _ hvs] at hv1
          obtain ⟨w2, effs2, hr, ht⟩ := ih
            { timeslices := w.timeslices.set w.nextslice (writeConns wr (raw % 95 + 32) conns).1
              nextslice := if w.nextslice + 1 ≥ w.timeslices.length then 0
                           else w.nextslice + 1 }
            none (by simpa using hlen) hnext hi (by rw [hv1]; exact hview) (by simp) hfresh2
          refine ⟨w2, _, hrun w2 effs2 hr, ?_⟩
          rw [connTrace_append, ← hf.2, ht]
          simp [connTrace, lifeOf]
        | some rem =>
          obtain ⟨hpos, hlt⟩ := hst rem rfl
          have hwrap : wrap64 (rem - 1) = rem - 1 := wrap64_of_range (by omega) (by omega)
          simp only [cell] at hcell
          rw [hcell] at hv1 hf
          simp only [writeConns, hwrap] at hv1 hf
          by_cases hgone : rem - 1 ≤ 0 ∨ (wr c).n = 0 ∨ (wr c).err = true
          · rw [if_pos hgone] at hv1 hf
            have hv2 : view c (w.timeslices.set w.nextslice
                (writeConns wr (raw % 95 + 32) conns).1)
                = (List.replicate n []).set i (cell c none) := by
              rw [hv1, hview, ← his, List.set_set]
              rfl
            obtain ⟨w2, effs2, hr, ht⟩ := ih
              { timeslices := w.timeslices.set w.nextslice
                  (writeConns wr (raw % 95 + 32) conns).1
                nextslice := if w.nextslice + 1 ≥ w.timeslices.length then 0
                             else w.nextslice + 1 }
              none (by simpa using hlen) hnext hi hv2 (by simp) hfresh2
            refine ⟨w2, _, hrun w2 effs2 hr, ?_⟩
            rw [connTrace_append, ← hf.2, ht]
            have hgone2 : rem ≤ 1 ∨ (wr c).n = 0 ∨ (wr c).err = true := by
              rcases hgone with h | h
              · exact Or.inl (by omega)
              · exact Or.inr h
            simp [connTrace, lifeOf, outcomes, his, lifeTrace, hgone2]
          · rw [if_neg hgone] at hv1 hf
            have hv2 : view c (w.timeslices.set w.nextslice
                (writeConns wr (raw % 95 + 32) conns).1)
                = (List.replicate n []).set i (cell c (some (rem - 1))) := by
              rw [hv1, hview, ← his, List.set_set]
              rfl
            have hrem : ∀ r, some (rem - 1) = some r → 0 < r ∧ r < 2 ^ 63 := by
              intro r hr
              simp only [Option.some.injEq] at hr
              subst hr
              simp only [not_or, not_le] at hgone
              exact ⟨hgone.1, by omega⟩
            obtain ⟨w2, effs2, hr, ht⟩ := ih
              { timeslices := w.timeslices.set w.nextslice
                  (writeConns wr (raw % 95 + 32) conns).1
                nextslice := if w.nextslice + 1 ≥ w.timeslices.length then 0
                             else w.nextslice + 1 }
              (some (rem - 1)) (by simpa using hlen) hnext hi hv2 hrem hfresh2
            refine ⟨w2, _, hrun w2 effs2 hr, ?_⟩
            rw [connTrace_append, ← hf.2, ht]
            have hgone2 : ¬ (rem ≤ 1 ∨ (wr c).n = 0 ∨ (wr c).err = true) := by
              intro h
              apply hgone
              rcases h with h | h
              · exact Or.inl (by omega)
              · exact Or.inr h
            simp [connTrace, lifeOf, outcomes, his, lifeTrace, hgone2, hlen]
      · rw [if_neg his] at hcell
        rw [hcell] at hv1 hf hvs
        simp only [writeConns] at hv1 hf
        rw [set_self _ _ _ hvs] at hv1
        obtain ⟨w2, effs2, hr, ht⟩ := ih
          { timeslices := w.timeslices.set w.nextslice (writeConns wr (raw % 95 + 32) conns).1
            nextslice := if w.nextslice + 1 ≥ w.timeslices.length then 0
                         else w.nextslice + 1 }
          st (by simpa using hlen) hnext hi (by rw [hv1]; exact hview) hst hfresh2
        refine ⟨w2, _, hrun w2 effs2 hr, ?_⟩
        rw [connTrace_append, ← hf.2, ht]
        have his2 : ¬ w.nextslice = i := fun h => his h.symm
        simp [connTrace, outcomes, his2, hlen]

/-! ## The life of one connection in closed form -/

theorem lifeTrace_closed (os : List WriteResult) :
    ∀ R : Int, 1 ≤ R →
      lifeTrace R os =
        (os.take (min os.length (closeAt R os))).map some
          ++ (if closeAt R os ≤ os.length then [none] else []) := by
  induction os with
  | nil =>
    intro R hR
    have : ¬ closeAt R [] ≤ 0 := by
      simp only [closeAt, List.findIdx_nil]
      omega
    simp [lifeTrace, this]
  | cons o os ih =>
    intro R hR
    by_cases hg : R - 1 ≤ 0 ∨ o.n = 0 ∨ o.err = true
    · have hc : closeAt R (o :: os) = 1 := by
        simp only [closeAt, List.findIdx_cons]
        rcases hg with h | h
        · have : R.toNat = 1 := by omega
          rw [this]
          cases failed o <;> simp
        · have hf : failed o = true := by
            simp only [failed, Bool.or_eq_true, decide_eq_true_eq]
            exact h
          rw [hf]
          simp only [cond_true, zero_add]
          omega
      have hl : lifeTrace R (o :: os) = [some o, none] := by
        simp only [lifeTrace, if_pos hg]
      have hm : min (o :: os).length (closeAt R (o :: os)) = 1 := by
        rw [hc, List.length_cons]
        omega
      rw [hl, hm, hc]
      simp
    · have hg2 := hg
      simp only [not_or, not_le] at hg2
      have hf : failed o = false := by
        simp only [failed, Bool.or_eq_false_iff, decide_eq_false_iff_not]
        exact ⟨hg2.2.1, by simpa using hg2.2.2⟩
      have hc : closeAt R (o :: os) = closeAt (R - 1) os + 1 := by
        simp only [closeAt, List.findIdx_cons, hf, cond_false]
        omega
      have hm : min (o :: os).length (closeAt R (o :: os))
          = min os.length (closeAt (R - 1) os) + 1 := by
        rw [hc, List.length_cons]
        omega
      rw [hm, hc]
      simp only [lifeTrace, if_neg hg, ih (R - 1) (by omega), List.take_succ_cons, List.map_cons,
        List.cons_append, List.length_cons, Nat.add_le_add_iff_right]

theorem view_absent (c : Nat) (ts : List (List tarpitConn)) (h : c ∉ ids ts.flatten) :
    view c ts = List.replicate ts.length [] := by
  induction ts with
  | nil => rfl
  | cons t ts ih =>
    simp only [ids, List.flatten_cons, List.map_append, List.mem_append, not_or] at h
    have h1 : t.filter (fun x => decide (x.conn = c)) = [] := by
      rw [List.filter_eq_nil_iff]
      intro x hx
      simp only [decide_eq_true_eq]
      intro hxc
      exact h.1 (List.mem_map.mpr ⟨x, hx, hxc⟩)
    have h2 := ih h.2
    simp only [view] at h2 ⊢
    simp [h1, h2, List.replicate_succ]

theorem run_arrival_conn (w : Worker) (tc : tarpitConn) (raw : Nat) (post : List Event)
    (hcur : w.nextslice < w.timeslices.length)
    (hfresh : tc.conn ∉ ids (residents w)) (hpost : tc.conn ∉ ids (arrivals post))
    (hR : 1 ≤ tc.remaining) (hR64 : tc.remaining ≤ maxInt64) :
    ∃ w1 effs, run w (Event.arrival tc raw :: post) = some (w1, effs) ∧
      connTrace tc.conn effs =
        lifeTrace tc.remaining
          (outcomes w.timeslices.length (raw % w.timeslices.length) tc.conn w.nextslice post) := by
  obtain ⟨conns, hc, heq⟩ := arrive_eq w tc raw (by omega)
  have hi : raw % w.timeslices.length < w.timeslices.length := Nat.mod_lt _ (by omega)
  have hv0 := view_absent tc.conn w.timeslices hfresh
  have hb := view_bucket tc.conn _ _ _ hc
  rw [hv0, List.getElem?_replicate, if_pos hi] at hb
  have hfl : (conns ++ [tc]).filter (fun x => decide (x.conn = tc.conn))
      = cell tc.conn (some tc.remaining) := by
    rw [List.filter_append, ← Option.some.inj hb]
    simp [List.filter_cons, cell]
  have hv : view tc.conn (w.timeslices.set (raw % w.timeslices.length) (conns ++ [tc]))
      = (List.replicate w.timeslices.length []).set (raw % w.timeslices.length)
          (cell tc.conn (some tc.remaining)) := by
    have h1 : view tc.conn (w.timeslices.set (raw % w.timeslices.length) (conns ++ [tc]))
        = (view tc.conn w.timeslices).set (raw % w.timeslices.length)
            ((conns ++ [tc]).filter (fun x => decide (x.conn = tc.conn))) := by
      simp only [view, List.map_set]
    rw [h1, hfl, hv0]
  unfold maxInt64 at hR64
  obtain ⟨w2, effs2, hr, ht⟩ := run_conn tc.conn (raw % w.timeslices.length)
    w.timeslices.length post
    { timeslices := w.timeslices.set (raw % w.timeslices.length) (conns ++ [tc])
      nextslice := w.nextslice } (some tc.remaining) (by simp) hcur hi hv
    (by
      intro r hr
      simp only [Option.some.injEq] at hr
      subst hr
      exact ⟨by omega, by omega⟩) hpost
  refine ⟨w2, [] ++ effs2, by simp [run, step, heq, hr], ?_⟩
  simpa [lifeOf] using ht

theorem closedConns_count (c : Nat) (effs : List Effect) :
    (closedConns effs).count c = (connTrace c effs).count none := by
  induction effs with
  | nil => rfl
  | cons e es ih =>
    cases e with
    | write c1 b res =>
      rw [connTrace_write]
      have : closedConns (Effect.write c1 b res :: es) = closedConns es := by simp [closedConns]
      rw [this, ih]
      split_ifs <;> simp
    | close c1 =>
      rw [connTrace_close]
      have : closedConns (Effect.close c1 :: es) = c1 :: closedConns es := by simp [closedConns]
      rw [this, List.count_cons, ih]
      by_cases h : c1 = c <;> simp [h]

theorem writtenConns_count (c : Nat) (effs : List Effect) :
    (writtenConns effs).count c = ((connTrace c effs).filter Option.isSome).length := by
  induction effs with
  | nil => rfl
  | cons e es ih =>
    cases e with
    | write c1 b res =>
      rw [connTrace_write]
      have : writtenConns (Effect.write c1 b res :: es) = c1 :: writtenConns es := by
        simp [writtenConns]
      rw [this, List.count_cons, ih]
      by_cases h : c1 = c <;> simp [h]
    | close c1 =>
      rw [connTrace_close]
      have : writtenConns (Effect.close c1 :: es) = writtenConns es := by simp [writtenConns]
      rw [this, ih]
      split_ifs <;> simp

/-! ## The life of one connection (claims about writes and closes) -/

theorem findIdx_all_ok (os : List WriteResult) (h : ∀ o ∈ os, o.n = 1 ∧ o.err = false) :
    os.findIdx failed = os.length := by
  induction os with
  | nil => rfl
  | cons o os ih =>
    have ho := h o (List.mem_cons_self _ _)
    have hf : failed o = false := by simp [failed, ho.1, ho.2]
    rw [List.findIdx_cons, hf, cond_false, ih (fun x hx => h x (List.mem_cons_of_mem _ hx)),
      List.length_cons]

theorem bytesOf_writes (os : List WriteResult) (tl : List (Option WriteResult))
    (htl : tl = [] ∨ tl = [none]) :
    bytesOf (os.map some ++ tl) = (os.map (fun o => o.n)).sum := by
  induction os with
  | nil => rcases htl with rfl | rfl <;> simp [bytesOf]
  | cons o os ih =>
    simp only [bytesOf, List.map_cons, List.cons_append, List.sum_cons] at ih ⊢
    rw [ih]

theorem sum_all_ok (os : List WriteResult) (h : ∀ o ∈ os, o.n = 1 ∧ o.err = false) :
    (os.map (fun o => o.n)).sum = (os.length : Int) := by
  induction os with
  | nil => rfl
  | cons o os ih =>
    have ho := h o (List.mem_cons_self _ _)
    simp only [List.map_cons, List.sum_cons, List.length_cons, ho.1,
      ih (fun x hx => h x (List.mem_cons_of_mem _ hx))]
    push_cast
    ring

theorem filter_isSome_writes (os : List WriteResult) (tl : List (Option WriteResult))
    (htl : tl = [] ∨ tl = [none]) :
    ((os.map some ++ tl).filter Option.isSome).length = os.length := by
  induction os with
  | nil => rcases htl with rfl | rfl <;> simp
  | cons o os ih => simpa using ih

theorem count_none_writes (os : List WriteResult) (tl : List (Option WriteResult)) :
    (os.map some ++ tl).count none = tl.count none := by
  induction os with
  | nil => simp
  | cons o os ih => simpa [List.count_cons] using ih

/-- C1 (amended): A connection admitted with budget `R ≥ 1` into a ring
where it is not yet resident, and not admitted again, has the following trace,
where `os` are the results of the writes at the successive drains of its bucket
after its admission: one write at each of the first `min(|os|, closeAt R os)`
drains, then one close if `closeAt R os ≤ |os|`, and nothing after the close.
Here `closeAt R os = min(R, F)` with `F` the position (from 1) of the first write
that transmitted zero bytes or returned an error.  The bytes written are those
transmitted by these writes; when every write transmits its byte without error
they number `min(|os|, R)`. -/
theorem conn_lifecycle (w : Worker) (tc : tarpitConn) (raw : Nat) (post : List Event)
    (hcur : w.nextslice < w.timeslices.length)
    (hfresh : tc.conn ∉ ids (residents w)) (hpost : tc.conn ∉ ids (arrivals post))
    (hR : 1 ≤ tc.remaining) (hR64 : tc.remaining ≤ maxInt64) :
    ∃ w1 effs os, run w (Event.arrival tc raw :: post) = some (w1, effs) ∧
      os = outcomes w.timeslices.length (raw % w.timeslices.length) tc.conn w.nextslice post ∧
      connTrace tc.conn effs =
        (os.take (min os.length (closeAt tc.remaining os))).map some
          ++ (if closeAt tc.remaining os ≤ os.length then [none] else []) ∧
      (writtenConns effs).count tc.conn = min os.length (closeAt tc.remaining os) ∧
      (closedConns effs).count tc.conn = (if closeAt tc.remaining os ≤ os.length then 1 else 0) ∧
      bytesWritten tc.conn effs
        = ((os.take (min os.length (closeAt tc.remaining os))).map (fun o => o.n)).sum ∧
      ((∀ o ∈ os, o.n = 1 ∧ o.err = false) →
        bytesWritten tc.conn effs = min (os.length : Int) tc.remaining) := by
  obtain ⟨w1, effs, hrun, htr⟩ := run_arrival_conn w tc raw post hcur hfresh hpost hR hR64
  rw [lifeTrace_closed _ _ hR] at htr
  refine ⟨w1, effs, _, hrun, rfl, htr, ?_⟩
  generalize outcomes w.timeslices.length (raw % w.timeslices.length) tc.conn w.nextslice post
    = os at htr
  have htl : (if closeAt tc.remaining os ≤ os.length then [none] else [])
      = ([] : List (Option WriteResult)) ∨
      (if closeAt tc.remaining os ≤ os.length then [none] else [])
      = ([none] : List (Option WriteResult)) := by
    split_ifs
    · exact Or.inr rfl
    · exact Or.inl rfl
  refine ⟨?_, ?_, ?_, ?_⟩
  · rw [writtenConns_count, htr, filter_isSome_writes _ _ htl, List.length_take]
    omega
  · rw [closedConns_count, htr, count_none_writes]
    split_ifs <;> simp
  · rw [bytesWritten, htr]
    exact bytesOf_writes _ _ htl
  · intro hok
    rw [bytesWritten, htr, bytesOf_writes _ _ htl]
    rw [sum_all_ok _ (fun o ho => hok o (List.mem_of_mem_take ho)), List.length_take]
    simp only [closeAt, findIdx_all_ok _ hok]
    omega

/-! ## A single connection whose writes all succeed -/

theorem run_append (a b : List Event) (w w1 w2 : Worker) (effs1 effs2 : List Effect)
    (h1 : run w a = some (w1, effs1)) (h2 : run w1 b = some (w2, effs2)) :
    run w (a ++ b) = some (w2, effs1 ++ effs2) := by
  induction a generalizing w effs1 with
  | nil =>
    simp only [run, Option.some.injEq, Prod.mk.injEq] at h1
    obtain ⟨rfl, rfl⟩ := h1
    simpa using h2
  | cons e es ih =>
    obtain ⟨wm, ea, eb, hs, hr, rfl⟩ := run_cons_some w e es w1 effs1 h1
    have := ih wm eb hr
    simp [run, hs, this]

theorem arrivals_okTicks (raws : List Nat) : arrivals (raws.map okTick) = [] := by
  induction raws with
  | nil => rfl
  | cons r rs ih =>
    rw [List.map_cons, arrivals_cons, ih]
    rfl

theorem ticks_okTicks (raws : List Nat) : ticks (raws.map okTick) = raws.length := by
  induction raws with
  | nil => rfl
  | cons r rs ih =>
    rw [List.map_cons, ticks_cons, ih, List.length_cons]
    simp [ticks, okTick]
    omega

theorem outcomes_okTicks (i c : Nat) (hi : i < 10) :
    ∀ (raws : List Nat) (s : Nat), s < 10 →
      outcomes 10 i c s (raws.map okTick)
        = List.replicate ((raws.length + 9 - (i + 10 - s) % 10) / 10) { n := 1, err := false } := by
  intro raws
  induction raws with
  | nil =>
    intro s hs
    have : (0 + 9 - (i + 10 - s) % 10) / 10 = 0 := by omega
    simp [outcomes, this]
  | cons r rs ih =>
    intro s hs
    simp only [List.map_cons, okTick, outcomes, List.length_cons]
    have hs2 : (if s + 1 ≥ 10 then 0 else s + 1) < 10 := by split_ifs <;> omega
    have ih2 := ih _ hs2
    simp only [okTick] at ih2
    rw [ih2]
    by_cases hsi : s = i
    · rw [if_pos hsi]
      have : (rs.length + 1 + 9 - (i + 10 - s) % 10) / 10
          = (rs.length + 9 - (i + 10 - (if s + 1 ≥ 10 then 0 else s + 1)) % 10) / 10 + 1 := by
        split_ifs <;> omega
      rw [this, List.replicate_succ]
      rfl
    · rw [if_neg hsi]
      have : (rs.length + 1 + 9 - (i + 10 - s) % 10) / 10
          = (rs.length + 9 - (i + 10 - (if s + 1 ≥ 10 then 0 else s + 1)) % 10) / 10 := by
        split_ifs <;> omega
      rw [this]
      rfl

theorem lifeTrace_all_ok (D : Nat) (R : Int) (hR : 1 ≤ R) :
    lifeTrace R (List.replicate D { n := 1, err := false })
      = List.replicate (min D R.toNat) (some { n := 1, err := false })
          ++ (if R.toNat ≤ D then [none] else []) := by
  have hok : ∀ o ∈ List.replicate D ({ n := 1, err := false } : WriteResult),
      o.n = 1 ∧ o.err = false := by
    intro o ho
    rw [List.eq_of_mem_replicate ho]
    exact ⟨rfl, rfl⟩
  rw [lifeTrace_closed _ _ hR]
  simp only [closeAt, findIdx_all_ok _ hok, List.length_replicate, List.take_replicate,
    List.map_replicate]
  have h1 : min (min D (min R.toNat (D + 1))) D = min D R.toNat := by omega
  have h2 : (min R.toNat (D + 1) ≤ D) ↔ (R.toNat ≤ D) := by omega
  rw [h1]
  simp only [h2]

theorem bytesOf_replicate (m : Nat) (tl : List (Option WriteResult))
    (htl : tl = [] ∨ tl = [none]) :
    bytesOf (List.replicate m (some { n := 1, err := false }) ++ tl) = (m : Int) := by
  induction m with
  | zero => rcases htl with rfl | rfl <;> simp [bytesOf]
  | succ m ih =>
    simp only [bytesOf, List.replicate_succ, List.cons_append, List.map_cons, List.sum_cons]
      at ih ⊢
    rw [ih]
    push_cast
    ring

theorem count_none_replicate (m : Nat) (tl : List (Option WriteResult)) :
    (List.replicate m (some ({ n := 1, err := false } : WriteResult)) ++ tl).count none
      = tl.count none := by
  induction m with
  | zero => simp
  | succ m ih => simpa [List.replicate_succ, List.count_cons] using ih

theorem run_no_arrival_trace (c : Nat) (evs : List Event) (w w1 : Worker) (effs : List Effect)
    (hcur : w.nextslice < w.timeslices.length) (hres : c ∉ ids (residents w))
    (harr : c ∉ ids (arrivals evs)) (hrun : run w evs = some (w1, effs)) :
    connTrace c effs = [] := by
  have hv0 := view_absent c w.timeslices hres
  have hv : view c w.timeslices
      = (List.replicate w.timeslices.length []).set w.nextslice (cell c none) := by
    rw [hv0]
    symm
    apply set_self
    rw [List.getElem?_replicate, if_pos hcur]
    rfl
  obtain ⟨w2, effs2, hr, ht⟩ := run_conn c w.nextslice w.timeslices.length evs w none rfl hcur
    hcur hv (by simp) harr
  rw [hrun] at hr
  simp only [Option.some.injEq, Prod.mk.injEq] at hr
  rw [hr.2]
  simpa [lifeOf] using ht

/-- C7 (amended, Scenario B): With `minResponseLen = maxResponseLen = 5`,
`period = 1s` and `timeslice = 100ms`, `numTimeslices` is 10.  For a single
connection admitted after any number of ticks into any bucket, whose writes all
succeed, exactly 5 bytes are written and it is then closed once; the close
happens at tick `T` after its arrival, where `T = d + 41` and `d < 10` is the
distance from the cursor to its bucket, so `41 ≤ T ≤ 50`: one byte per turn of
the ring.  Before tick `T` the connection is open and has received fewer than 5
bytes. -/
theorem scenarioB (workers : Int) (contentType : String) (t : Tarpit) (k : Nat)
    (rawSleep rawLen rawSlot conn : Nat) (pre post : List Nat)
    (hNew : New workers contentType 1000000000 100000000 5 5 = (some t, k)) :
    t.numTimeslices = 10 ∧
    41 ≤ (rawSlot % 10 + 10 - pre.length % 10) % 10 + 41 ∧
    (rawSlot % 10 + 10 - pre.length % 10) % 10 + 41 ≤ 50 ∧
    ∃ w0 resp w1 effs,
      timerInit t rawSleep = some w0 ∧
      Handler t rawLen (some conn) = some (resp, some { conn := conn, remaining := 5 }) ∧
      resp.contentLength = "5" ∧
      run w0 (pre.map okTick ++ Event.arrival { conn := conn, remaining := 5 } rawSlot
                :: post.map okTick) = some (w1, effs) ∧
      (post.length < (rawSlot % 10 + 10 - pre.length % 10) % 10 + 41 →
        bytesWritten conn effs < 5 ∧ (closedConns effs).count conn = 0) ∧
      ((rawSlot % 10 + 10 - pre.length % 10) % 10 + 41 ≤ post.length →
        connTrace conn effs
          = List.replicate 5 (some { n := 1, err := false }) ++ [none] ∧
        bytesWritten conn effs = 5 ∧ (closedConns effs).count conn = 1) := by
  obtain ⟨_, ht, _⟩ := New_eq_some hNew
  have hnum : goDiv (wrap64 (wrap64 (1000000000 + 100000000) - 1)) 100000000 = 10 := by decide
  rw [hnum] at ht
  subst ht
  refine ⟨rfl, by omega, by omega, ?_⟩
  have hinit : timerInit
      { contentType := contentType, numTimeslices := 10, timeslice := 100000000,
        minResponseLen := 5, maxResponseLen := 5, toTimer := { buf := [], closed := false } }
      rawSleep = some { timeslices := List.replicate 10 [], nextslice := 0 } := by
    simp [timerInit, Int63n]
  have hbound : lenBound
      { contentType := contentType, numTimeslices := 10, timeslice := 100000000,
        minResponseLen := 5, maxResponseLen := 5, toTimer := { buf := [], closed := false } }
      = 1 := by
    simp only [lenBound]
    decide
  have hh : Handler
      { contentType := contentType, numTimeslices := 10, timeslice := 100000000,
        minResponseLen := 5, maxResponseLen := 5, toTimer := { buf := [], closed := false } }
      rawLen (some conn)
      = some ({ status := 200, contentType := contentType, contentLength := "5" },
              some { conn := conn, remaining := 5 }) := by
    have h5 : wrap64 5 = 5 := by decide
    have hs : toString (5 : Int) = "5" := by decide
    simp [Handler, Int63n, hbound, responseLenOf, Int.emod_one, h5, hs]
  -- the ticks before the arrival
  obtain ⟨wa, effsa, hra, hla, hca, hna⟩ := run_total (pre.map okTick)
    { timeslices := List.replicate 10 [], nextslice := 0 } (by simp)
  simp only [List.length_replicate, ticks_okTicks, Nat.zero_add] at hla hna
  have hres0 : residents { timeslices := List.replicate 10 [], nextslice := 0 } = [] := by
    simp [residents]
  have hpa := run_perm _ _ _ _ hra
  rw [hres0, arrivals_okTicks] at hpa
  simp only [ids, List.map_nil, List.append_nil, List.perm_nil, List.append_eq_nil,
    List.map_eq_nil_iff] at hpa
  have htra : connTrace conn effsa = [] :=
    run_no_arrival_trace conn _ _ _ _ (by simp) (by rw [hres0]; simp [ids])
      (by simp [arrivals_okTicks, ids]) hra
  -- the arrival and the ticks after it
  obtain ⟨w1, effsb, hrb, htrb⟩ := run_arrival_conn wa { conn := conn, remaining := 5 } rawSlot
    (post.map okTick) hca (by simp [hpa.2, ids]) (by simp [arrivals_okTicks, ids])
    (by show (1 : Int) ≤ 5; decide) (by show (5 : Int) ≤ maxInt64; decide)
  simp only [hla, hna] at htrb
  rw [outcomes_okTicks _ _ (Nat.mod_lt _ (by decide)) _ _ (Nat.mod_lt _ (by decide)),
    lifeTrace_all_ok _ _ (by decide)] at htrb
  have hrun := run_append _ _ _ _ _ _ _ hra hrb
  have htr : connTrace conn (effsa ++ effsb) = connTrace conn effsb := by
    rw [connTrace_append, htra, List.nil_append]
  have h5 : (5 : Int).toNat = 5 := by decide
  rw [h5] at htrb
  refine ⟨_, _, w1, effsa ++ effsb, hinit, hh, rfl, hrun, ?_, ?_⟩
  · intro hlt
    have hD : (post.length + 9 - (rawSlot % 10 + 10 - pre.length % 10) % 10) / 10 < 5 := by omega
    have hno : ¬ 5 ≤ (post.length + 9 - (rawSlot % 10 + 10 - pre.length % 10) % 10) / 10 := by
      omega
    rw [if_neg hno] at htrb
    constructor
    · rw [bytesWritten, htr, htrb, bytesOf_replicate _ _ (Or.inl rfl)]
      omega
    · rw [closedConns_count, htr, htrb, count_none_replicate]
      rfl
  · intro hge
    have hD : 5 ≤ (post.length + 9 - (rawSlot % 10 + 10 - pre.length % 10) % 10) / 10 := by omega
    rw [if_pos hD, Nat.min_eq_right hD] at htrb
    refine ⟨by rw [htr, htrb], ?_, ?_⟩
    · rw [bytesWritten, htr, htrb, bytesOf_replicate _ _ (Or.inr rfl)]
      rfl
    · rw [closedConns_count, htr, htrb, count_none_replicate]
      rfl

/-! ## The cursor -/

theorem drainedBuckets_eq (evs : List Event) :
    ∀ w : Worker, w.nextslice < w.timeslices.length →
      drainedBuckets w evs
        = (List.range (ticks evs)).map (fun k => (w.nextslice + k) % w.timeslices.length) := by
  induction evs with
  | nil => intro w _; rfl
  | cons e es ih =>
    intro w h
    obtain ⟨w1, effs, hs, hl, hc, hn⟩ := step_total w e h
    have ih1 := ih w1 hc
    rw [hl, hn] at ih1
    simp only [drainedBuckets, hs, ih1]
    cases e with
    | arrival tc raw =>
      have h0 : ticks [Event.arrival tc raw] = 0 := rfl
      have h1 : ticks (Event.arrival tc raw :: es) = ticks es := by rw [ticks_cons, h0]; omega
      rw [h1, h0]
      simp
    | tick raw wr =>
      have h0 : ticks [Event.tick raw wr] = 1 := rfl
      have h1 : ticks (Event.tick raw wr :: es) = ticks es + 1 := by rw [ticks_cons, h0]; omega
      rw [h1, h0, List.range_succ_eq_map]
      simp only [List.map_cons, List.map_map, Nat.add_zero, Nat.mod_eq_of_lt h,
        List.singleton_append, List.cons.injEq, true_and]
      apply List.map_congr_left
      intro k _
      simp only [Function.comp, Nat.succ_eq_add_one, Nat.mod_add_mod]
      congr 1
      omega

theorem window_of_map_range (f : Nat → Nat) (total k n : Nat) (h : k + n ≤ total) :
    (((List.range total).map f).drop k).take n = (List.range n).map (fun i => f (k + i)) := by
  apply List.ext_getElem?
  intro j
  by_cases hj : j < n
  · have h1 : k + j < total := by omega
    simp [List.getElem?_take, List.getElem?_drop, List.getElem?_map, List.getElem?_range, hj, h1]
  · have h2 : (List.range n)[j]? = none := List.getElem?_eq_none (by simp; omega)
    simp [List.getElem?_take, hj, h2]

theorem rotation_perm (k n : Nat) :
    ((List.range n).map (fun i => (k + i) % n)).Perm (List.range n) := by
  apply (List.subperm_of_subset ?_ ?_).perm_of_length_le
  · simp
  · apply List.Nodup.map_on _ (List.nodup_range n)
    intro a ha b hb hab
    rw [List.mem_range] at ha hb
    have h1 : (k + a) % n = (k + b) % n := hab
    have hn : 0 < n := by omega
    rcases Nat.lt_or_ge a b with hlt | hge
    · have hd : (k + b - (k + a)) % n = 0 := Nat.sub_mod_eq_zero_of_mod_eq h1.symm
      have hba : k + b - (k + a) = b - a := by omega
      rw [hba, Nat.mod_eq_of_lt (by omega)] at hd
      omega
    · have hd : (k + a - (k + b)) % n = 0 := Nat.sub_mod_eq_zero_of_mod_eq h1
      have hba : k + a - (k + b) = a - b := by omega
      rw [hba, Nat.mod_eq_of_lt (by omega)] at hd
      omega
  · intro x hx
    simp only [List.mem_map, List.mem_range] at hx
    obtain ⟨i, hi, rfl⟩ := hx
    exact List.mem_range.mpr (Nat.mod_lt _ (by omega))

theorem timerInit_some (t : Tarpit) (rawSleep : Nat) (w0 : Worker)
    (h0 : timerInit t rawSleep = some w0) :
    w0 = { timeslices := List.replicate t.numTimeslices.toNat [], nextslice := 0 } := by
  unfold timerInit at h0
  split_ifs at h0
  cases hs : Int63n rawSleep t.timeslice with
  | none => simp [hs] at h0
  | some d =>
    simp only [hs, Option.some.injEq] at h0
    exact h0.symm

/-- C8: Within one worker, for `numTimeslices ≥ 1`: the cursor starts at 0,
equals `k mod numTimeslices` after `k` ticks (arrivals do not move it) and so
is always a valid bucket index; the bucket drained at tick number `k` (from 0)
is `k mod numTimeslices`, so every window of `numTimeslices` consecutive ticks
drains the buckets in increasing order with wrap-around, each exactly once. -/
theorem cursor_round_robin (t : Tarpit) (rawSleep : Nat) (w0 : Worker) (evs : List Event)
    (hn : 1 ≤ t.numTimeslices) (h0 : timerInit t rawSleep = some w0) :
    w0.nextslice = 0 ∧ w0.timeslices.length = t.numTimeslices.toNat ∧
    ∃ w effs, run w0 evs = some (w, effs) ∧
      w.timeslices.length = t.numTimeslices.toNat ∧
      w.nextslice = ticks evs % t.numTimeslices.toNat ∧
      w.nextslice < t.numTimeslices.toNat ∧
      drainedBuckets w0 evs
        = (List.range (ticks evs)).map (fun k => k % t.numTimeslices.toNat) ∧
      ∀ k, k + t.numTimeslices.toNat ≤ ticks evs →
        ((drainedBuckets w0 evs).drop k).take t.numTimeslices.toNat
          = (List.range t.numTimeslices.toNat).map (fun i => (k + i) % t.numTimeslices.toNat) ∧
        (((drainedBuckets w0 evs).drop k).take t.numTimeslices.toNat).Perm
          (List.range t.numTimeslices.toNat) := by
  have hw0 := timerInit_some t rawSleep w0 h0
  subst hw0
  have hpos : 0 < t.numTimeslices.toNat := by omega
  have hcur : (0 : Nat) < (List.replicate t.numTimeslices.toNat ([] : List tarpitConn)).length := by
    simpa using hpos
  obtain ⟨w, effs, hr, hl, hc, hnx⟩ := run_total evs
    { timeslices := List.replicate t.numTimeslices.toNat [], nextslice := 0 } hcur
  have hd := drainedBuckets_eq evs
    { timeslices := List.replicate t.numTimeslices.toNat [], nextslice := 0 } hcur
  simp only [List.length_replicate, Nat.zero_add] at hl hnx hd
  refine ⟨rfl, by simp, w, effs, hr, hl, hnx, by omega, hd, fun k hk => ?_⟩
  rw [hd, window_of_map_range _ _ _ _ hk]
  exact ⟨rfl, rotation_perm k _⟩

/-! ## Ticks, the ring invariant and the drain path -/

/-- C4: In a ring state whose cursor is a valid index, the tick step makes
one write attempt on each handle of the bucket under the cursor, in order, and
every effect of the tick is on a handle of that bucket; every other bucket is
left unchanged, and (handles being resident once) no handle of another bucket
is written to or closed; the cursor becomes `(nextslice + 1) mod` the ring size. -/
theorem tick_drains_one_bucket (w : Worker) (raw : Nat) (wr : Nat → WriteResult)
    (h : w.nextslice < w.timeslices.length) :
    ∃ conns w1 effs, w.timeslices[w.nextslice]? = some conns ∧
      step w (Event.tick raw wr) = some (w1, effs) ∧
      writtenConns effs = ids conns ∧
      (∀ e ∈ effs, e.conn ∈ ids conns) ∧
      w1.timeslices.length = w.timeslices.length ∧
      (∀ j, j ≠ w.nextslice → w1.timeslices[j]? = w.timeslices[j]?) ∧
      ((ids (residents w)).Nodup →
        ∀ j other, j ≠ w.nextslice → w.timeslices[j]? = some other →
          ∀ x ∈ other, ∀ e ∈ effs, e.conn ≠ x.conn) ∧
      w1.nextslice = (w.nextslice + 1) % w.timeslices.length := by
  obtain ⟨conns, hc, heq⟩ := tickStep_eq w raw wr h
  refine ⟨conns, _, _, hc, heq, writeConns_written _ _ _, writeConns_conn_mem _ _ _,
    by simp, ?_, ?_, ?_⟩
  · intro j hj
    exact List.getElem?_set_ne (fun hh => hj hh.symm)
  · intro hnd j other hj hother x hx e he hex
    have hmem := writeConns_conn_mem wr (raw % 95 + 32) conns e he
    simp only [ids, List.mem_map] at hmem
    obtain ⟨y, hy, hye⟩ := hmem
    exact bucket_disjoint w.timeslices hnd w.nextslice j (fun hh => hj hh.symm) conns other
      hc hother y hy x hx (hye.trans hex)
  · show (if w.nextslice + 1 ≥ w.timeslices.length then 0 else w.nextslice + 1)
      = (w.nextslice + 1) % w.timeslices.length
    split_ifs with hge
    · have : w.nextslice + 1 = w.timeslices.length := by omega
      rw [this, Nat.mod_self]
    · rw [Nat.mod_eq_of_lt (by omega)]

theorem drainAll_eq (ts : List (List tarpitConn)) :
    drainAll ts
      = (List.replicate ts.length [], ts.flatten.map (fun tc => Effect.close tc.conn)) := by
  induction ts with
  | nil => rfl
  | cons t ts ih => simp [drainAll, closeConns_eq, ih, List.replicate_succ]

theorem closedConns_closes (l : List tarpitConn) :
    closedConns (l.map (fun tc => Effect.close tc.conn)) = ids l := by
  induction l with
  | nil => rfl
  | cons x xs ih =>
    simp only [closedConns, ids, List.map_cons, List.filterMap_cons] at ih ⊢
    rw [ih]

theorem writtenConns_closes (l : List tarpitConn) :
    writtenConns (l.map (fun tc => Effect.close tc.conn)) = [] := by
  induction l with
  | nil => rfl
  | cons x xs ih =>
    simp only [writtenConns, List.map_cons, List.filterMap_cons] at ih ⊢
    exact ih

theorem residents_init (n : Nat) :
    residents { timeslices := List.replicate n [], nextslice := 0 } = [] := by
  induction n with
  | zero => rfl
  | succ n ih =>
    simp only [residents, List.replicate_succ, List.flatten_cons, List.nil_append] at ih ⊢
    exact ih

theorem timer_runs (t : Tarpit) (rawSleep : Nat) (w0 : Worker) (evs : List Event)
    (hn : 1 ≤ t.numTimeslices) (h0 : timerInit t rawSleep = some w0) :
    ∃ w effs, run w0 evs = some (w, effs) := by
  have hw0 := timerInit_some t rawSleep w0 h0
  subst hw0
  obtain ⟨w, effs, hr, _⟩ := run_total evs
    { timeslices := List.replicate t.numTimeslices.toNat [], nextslice := 0 }
    (by simp; omega)
  exact ⟨w, effs, hr⟩

/-- C5: When the queue is closed after any events, in a worker whose
arriving handles are distinct: the loop has not panicked (for
`numTimeslices ≥ 1`), and from the state `w` it reached the drain path closes
the resident handles of every bucket, bucket after bucket, each exactly once,
performs no write, and leaves every bucket empty; a handle closed by an earlier
tick is not closed again, and over the whole execution of `timer` every handle
that arrived is closed exactly once. -/
theorem drain_closes_all (t : Tarpit) (rawSleep : Nat) (w0 : Worker) (evs : List Event)
    (h0 : timerInit t rawSleep = some w0) (hd : (ids (arrivals evs)).Nodup) :
    (1 ≤ t.numTimeslices → ∃ w effs, run w0 evs = some (w, effs)) ∧
    ∀ w effs, run w0 evs = some (w, effs) →
      timer t rawSleep evs = some ((drain w).1, effs ++ (drain w).2) ∧
      (drain w).2 = (residents w).map (fun tc => Effect.close tc.conn) ∧
      writtenConns (drain w).2 = [] ∧
      (drain w).1.timeslices = List.replicate w.timeslices.length [] ∧
      residents (drain w).1 = [] ∧
      (∀ c ∈ ids (residents w), (closedConns (drain w).2).count c = 1) ∧
      (∀ c ∈ closedConns effs, c ∉ closedConns (drain w).2) ∧
      (∀ c ∈ ids (arrivals evs), (closedConns (effs ++ (drain w).2)).count c = 1) := by
  refine ⟨fun hn => timer_runs t rawSleep w0 evs hn h0, ?_⟩
  intro w effs hrun
  have hw0 := timerInit_some t rawSleep w0 h0
  have hp := run_perm evs w0 w effs hrun
  rw [hw0, residents_init] at hp
  simp only [ids, List.map_nil, List.nil_append] at hp
  have hnd : (closedConns effs ++ List.map (fun tc => tc.conn) (residents w)).Nodup :=
    hp.nodup_iff.mpr hd
  have hdr : (drain w).2 = (residents w).map (fun tc => Effect.close tc.conn) := by
    simp [drain, drainAll_eq, residents]
  have hdt : (drain w).1.timeslices = List.replicate w.timeslices.length [] := by
    simp [drain, drainAll_eq]
  have hcl : closedConns (drain w).2 = ids (residents w) := by
    rw [hdr, closedConns_closes]
  refine ⟨?_, hdr, ?_, hdt, ?_, ?_, ?_, ?_⟩
  · simp [timer, h0, hrun]
  · rw [hdr, writtenConns_closes]
  · have := residents_init w.timeslices.length
    simp only [residents] at this ⊢
    rw [hdt]
    exact this
  · intro c hc
    rw [hcl]
    exact List.count_eq_one_of_mem (List.nodup_append.mp hnd).2.1 hc
  · intro c hc
    rw [hcl]
    exact fun hc2 => (List.nodup_append.mp hnd).2.2 hc hc2
  · intro c hc
    have hall : closedConns (effs ++ (drain w).2)
        = closedConns effs ++ List.map (fun tc => tc.conn) (residents w) := by
      simp only [closedConns, List.filterMap_append] at hcl ⊢
      rw [hcl]
      rfl
    rw [hall]
    exact List.count_eq_one_of_mem hnd (hp.mem_iff.mpr hc)

theorem Handler_remaining (workers : Int) (contentType : String)
    (period timeslice minResponseLen maxResponseLen : Int) (t : Tarpit) (k : Nat)
    (raw conn : Nat) (resp : Response) (tc : tarpitConn)
    (hNew : New workers contentType period timeslice minResponseLen maxResponseLen = (some t, k))
    (hmax : maxResponseLen ≤ maxInt64)
    (h : Handler t raw (some conn) = some (resp, some tc)) :
    minResponseLen ≤ tc.remaining ∧ tc.remaining ≤ maxResponseLen := by
  obtain ⟨⟨_, _, _, _, hmin, hle⟩, ht, _⟩ := New_eq_some hNew
  unfold maxInt64 at hmax
  have hb : lenBound t = maxResponseLen - minResponseLen + 1 := by
    subst ht
    simp only [lenBound]
    have hi : wrap64 (maxResponseLen - minResponseLen) = maxResponseLen - minResponseLen :=
      wrap64_of_range (by omega) (by omega)
    rw [hi]
    exact wrap64_of_range (by omega) (by omega)
  have hpos : 0 < lenBound t := by omega
  have hd0 : 0 ≤ (raw : Int) % lenBound t := Int.emod_nonneg _ (by omega)
  have hd1 : (raw : Int) % lenBound t < lenBound t := Int.emod_lt_of_pos _ hpos
  have hm : t.minResponseLen = minResponseLen := by subst ht; rfl
  have hr : responseLenOf t ((raw : Int) % lenBound t)
      = (raw : Int) % lenBound t + minResponseLen := by
    simp only [responseLenOf, hm]
    exact wrap64_of_range (by omega) (by omega)
  simp only [Handler, Int63n, if_neg (not_le.mpr hpos), Option.some.injEq, Prod.mk.injEq] at h
  rw [← h.2]
  show minResponseLen ≤ responseLenOf t ((raw : Int) % lenBound t) ∧
    responseLenOf t ((raw : Int) % lenBound t) ≤ maxResponseLen
  rw [hr]
  omega

/-- C6: In every state the loop of `timer` reaches from the empty ring by
ticks and by arrivals of distinct handles created by `Handler` under a
configuration accepted by `New`: every resident handle has `remaining > 0`,
no connection is resident twice, so each handle is in at most one bucket, and a
tick removes a handle of the drained bucket exactly when, after the write and
the decrement, `remaining ≤ 0`, or the write transmitted zero bytes, or it
returned an error.  For `numTimeslices ≥ 1` the loop reaches a state after any
events. -/
theorem ring_invariant (workers : Int) (contentType : String)
    (period timeslice minResponseLen maxResponseLen : Int) (t : Tarpit) (k : Nat)
    (rawSleep : Nat) (w0 : Worker) (evs : List Event)
    (hNew : New workers contentType period timeslice minResponseLen maxResponseLen = (some t, k))
    (hmax : maxResponseLen ≤ maxInt64)
    (h0 : timerInit t rawSleep = some w0)
    (hH : ∀ tc ∈ arrivals evs, ∃ raw resp, Handler t raw (some tc.conn) = some (resp, some tc))
    (hd : (ids (arrivals evs)).Nodup) :
    (1 ≤ t.numTimeslices → ∃ w effs, run w0 evs = some (w, effs)) ∧
    ∀ w effs, run w0 evs = some (w, effs) →
      (∀ x ∈ residents w, 0 < x.remaining) ∧
      (ids (residents w)).Nodup ∧
      (∀ (i j : Nat) (bi bj : List tarpitConn), w.timeslices[i]? = some bi → w.timeslices[j]? = some bj →
        ∀ x ∈ bi, ∀ y ∈ bj, x.conn = y.conn → i = j) ∧
      (∀ raw wr w1 effs1 conns, step w (Event.tick raw wr) = some (w1, effs1) →
        w.timeslices[w.nextslice]? = some conns →
        ∀ x ∈ conns,
          (x.conn ∉ ids (residents w1) ↔
            (x.remaining - 1 ≤ 0 ∨ (wr x.conn).n = 0 ∨ (wr x.conn).err = true))) := by
  refine ⟨fun hn => timer_runs t rawSleep w0 evs hn h0, ?_⟩
  intro w effs hrun
  have hw0 := timerInit_some t rawSleep w0 h0
  obtain ⟨⟨_, _, _, _, hmin, _⟩, _, _⟩ := New_eq_some hNew
  have hp := run_perm evs w0 w effs hrun
  rw [hw0, residents_init] at hp
  simp only [ids, List.map_nil, List.nil_append] at hp
  have hnd0 : (closedConns effs ++ List.map (fun tc => tc.conn) (residents w)).Nodup :=
    hp.nodup_iff.mpr hd
  have hnd : (ids (residents w)).Nodup := (List.nodup_append.mp hnd0).2.1
  have hrange : ∀ x ∈ residents w, 0 < x.remaining ∧ x.remaining < 2 ^ 63 := by
    apply run_pos evs w0 w effs hrun
    · rw [hw0, residents_init]
      simp
    · intro tc htc
      obtain ⟨raw, resp, hh⟩ := hH tc htc
      have := Handler_remaining workers contentType period timeslice minResponseLen
        maxResponseLen t k raw tc.conn resp tc hNew hmax hh
      unfold maxInt64 at hmax
      omega
  refine ⟨fun x hx => (hrange x hx).1, hnd, ?_, ?_⟩
  · intro i j bi bj hi hj x hx y hy hxy
    by_contra hij
    exact bucket_disjoint w.timeslices hnd i j hij bi bj hi hj x hx y hy hxy
  · intro raw wr w1 effs1 conns hs hc x hx
    simp only [step] at hs
    obtain ⟨conns2, hc2, heq⟩ := tickStep_eq w raw wr (tickStep_some w raw wr _ hs)
    rw [hc] at hc2
    simp only [Option.some.injEq] at hc2
    subst hc2
    rw [heq] at hs
    simp only [Option.some.injEq, Prod.mk.injEq] at hs
    obtain ⟨rfl, rfl⟩ := hs
    obtain ⟨A, B, h1, h2⟩ := flatten_split w.timeslices _ conns hc
    have hxr : x ∈ residents w := by
      simp only [residents, h1, List.mem_append]
      exact Or.inl (Or.inr hx)
    obtain ⟨hx0, hx1⟩ := hrange x hxr
    have hwrap : wrap64 (x.remaining - 1) = x.remaining - 1 :=
      wrap64_of_range (by omega) (by omega)
    simp only [residents, h1, ids, List.map_append] at hnd
    have hndc : (ids conns).Nodup := (List.nodup_append.mp (List.nodup_append.mp hnd).1).2.1
    have hxc : x.conn ∈ List.map (fun tc => tc.conn) conns := List.mem_map.mpr ⟨x, hx, rfl⟩
    have hxA : x.conn ∉ List.map (fun tc => tc.conn) A := fun hA =>
      (List.nodup_append.mp (List.nodup_append.mp hnd).1).2.2 hA hxc
    have hxB : x.conn ∉ List.map (fun tc => tc.conn) B := fun hB =>
      (List.nodup_append.mp hnd).2.2 (List.mem_append_right _ hxc) hB
    have hiff := writeConns_removed_iff wr (raw % 95 + 32) conns hndc x hx
    rw [hwrap] at hiff
    rw [← hiff]
    simp only [residents, h2, ids, List.map_append, List.mem_append, not_or]
    constructor
    · intro hh
      exact hh.1.2
    · intro hh
      exact ⟨⟨hxA, hh⟩, hxB⟩

/-! ## Construction, response length and shutdown -/

/-- C2: `New` returns `nil` exactly when one of the constraints is violated
(`workers <= 0`, empty content type, `timeslice <= 0`, `period < timeslice`,
`minResponseLen <= 0`, `maxResponseLen < minResponseLen`), and then starts no
worker; otherwise it returns a `Tarpit` and starts exactly `workers` workers. -/
theorem New_fails_iff (workers : Int) (contentType : String)
    (period timeslice minResponseLen maxResponseLen : Int) :
    ((New workers contentType period timeslice minResponseLen maxResponseLen).1 = none ↔
      (workers ≤ 0 ∨ contentType = "" ∨ timeslice ≤ 0 ∨ period < timeslice
        ∨ minResponseLen ≤ 0 ∨ maxResponseLen < minResponseLen)) ∧
    ((New workers contentType period timeslice minResponseLen maxResponseLen).1 = none →
      (New workers contentType period timeslice minResponseLen maxResponseLen).2 = 0) ∧
    ((New workers contentType period timeslice minResponseLen maxResponseLen).1 ≠ none →
      ((New workers contentType period timeslice minResponseLen maxResponseLen).2 : Int)
        = workers) := by
  unfold New
  split_ifs with h
  · simp [h]
  · refine ⟨⟨fun hh => by simp at hh, fun hh => absurd hh h⟩, by simp, fun _ => ?_⟩
    simp only [not_or, not_le, not_lt] at h
    simp only [startWorkers_eq]
    omega

/-- C3 (code defect): `New` accepts `period = timeslice = 2^63 - 1` nanoseconds,
for which `ceil(period / timeslice) = 1`, but the sum `period + timeslice - 1`
wraps around and `numTimeslices` is 0; with `timeslice = 2` it is negative.
The worker then panics: on its first arrival and first tick for 0 buckets, and
when allocating the ring for a negative count. -/
theorem New_numTimeslices_overflows :
    (New 1 "text/html" maxInt64 maxInt64 1 1).1.map (fun t => t.numTimeslices) = some 0 ∧
    ⌈((maxInt64 : Int) : ℚ) / ((maxInt64 : Int) : ℚ)⌉ = 1 ∧
    (New 1 "text/html" maxInt64 2 1 1).1.map (fun t => t.numTimeslices) = some (-(2 ^ 62)) ∧
    ((New 1 "text/html" maxInt64 maxInt64 1 1).1.bind (fun t => timerInit t 0)).bind
        (fun w => step w (Event.arrival { conn := 0, remaining := 1 } 0)) = none ∧
    ((New 1 "text/html" maxInt64 maxInt64 1 1).1.bind (fun t => timerInit t 0)).bind
        (fun w => step w (okTick 0)) = none ∧
    (New 1 "text/html" maxInt64 2 1 1).1.bind (fun t => timerInit t 0) = none := by
  refine ⟨by decide, ?_, by decide, by decide, by decide, by decide⟩
  rw [div_self (by norm_num [maxInt64])]
  simp

/-- C9: for a configuration accepted by `New` with `int64` bounds, the bound
passed to `Int63n` is `maxResponseLen - minResponseLen + 1` without overflow
and is positive; for the value `d` the generator returns, `responseLen` is
`d + minResponseLen` and lies in `[minResponseLen, maxResponseLen]`; it is the
advertised `Content-Length` and the initial `remaining` of the handle; and
`d ↦ responseLen` is a bijection from `[0, bound)` onto
`[minResponseLen, maxResponseLen]`. -/
theorem Handler_responseLen (workers : Int) (contentType : String)
    (period timeslice minResponseLen maxResponseLen : Int) (t : Tarpit) (k : Nat)
    (raw conn : Nat)
    (hNew : New workers contentType period timeslice minResponseLen maxResponseLen = (some t, k))
    (hmax : maxResponseLen ≤ maxInt64) :
    lenBound t = maxResponseLen - minResponseLen + 1 ∧ 0 < lenBound t ∧
    (∃ d : Int, Int63n raw (lenBound t) = some d ∧ 0 ≤ d ∧ d < lenBound t ∧
      responseLenOf t d = d + minResponseLen ∧
      minResponseLen ≤ responseLenOf t d ∧ responseLenOf t d ≤ maxResponseLen ∧
      Handler t raw (some conn) =
        some ({ status := 200, contentType := contentType,
                contentLength := toString (responseLenOf t d) },
              some { conn := conn, remaining := responseLenOf t d })) ∧
    Set.BijOn (responseLenOf t) (Set.Ico 0 (lenBound t))
      (Set.Icc minResponseLen maxResponseLen) := by
  obtain ⟨⟨_, _, _, _, hmin, hle⟩, ht, _⟩ := New_eq_some hNew
  unfold maxInt64 at hmax
  have hb : lenBound t = maxResponseLen - minResponseLen + 1 := by
    subst ht
    simp only [lenBound]
    have hi : wrap64 (maxResponseLen - minResponseLen) = maxResponseLen - minResponseLen :=
      wrap64_of_range (by omega) (by omega)
    rw [hi]
    exact wrap64_of_range (by omega) (by omega)
  have hpos : 0 < lenBound t := by omega
  have hresp : ∀ d : Int, 0 ≤ d → d < lenBound t → responseLenOf t d = d + minResponseLen := by
    intro d h0 h1
    subst ht
    simp only [responseLenOf]
    exact wrap64_of_range (by omega) (by omega)
  refine ⟨hb, hpos, ?_, ?_⟩
  · have h0 : 0 ≤ (raw : Int) % lenBound t := Int.emod_nonneg _ (by omega)
    have h1 : (raw : Int) % lenBound t < lenBound t := Int.emod_lt_of_pos _ hpos
    refine ⟨(raw : Int) % lenBound t, ?_, h0, h1, hresp _ h0 h1, ?_, ?_, ?_⟩
    · simp [Int63n, not_le.mpr hpos]
    · rw [hresp _ h0 h1]; omega
    · rw [hresp _ h0 h1]; omega
    · have hc : t.contentType = contentType := by subst ht; rfl
      simp [Handler, Int63n, not_le.mpr hpos, hc]
  · refine ⟨?_, ?_, ?_⟩
    · intro d hd
      simp only [Set.mem_Ico] at hd
      simp only [Set.mem_Icc]
      rw [hresp d hd.1 hd.2]
      omega
    · intro a ha b hb2 hab
      simp only [Set.mem_Ico] at ha hb2
      rw [hresp a ha.1 ha.2, hresp b hb2.1 hb2.2] at hab
      omega
    · intro L hL
      simp only [Set.mem_Icc] at hL
      refine ⟨L - minResponseLen, ?_, ?_⟩
      · simp only [Set.mem_Ico]; omega
      · rw [hresp _ (by omega) (by omega)]; omega

theorem Handler_responseLen_witness :
    New 2 "text/html" 1000000000 100000000 3 7 = (some sampleTarpit, 2) ∧
    (7 : Int) ≤ maxInt64 ∧
    (lenBound sampleTarpit = 7 - 3 + 1 ∧ 0 < lenBound sampleTarpit ∧
    (∃ d : Int, Int63n 13 (lenBound sampleTarpit) = some d ∧ 0 ≤ d ∧ d < lenBound sampleTarpit ∧
      responseLenOf sampleTarpit d = d + 3 ∧
      3 ≤ responseLenOf sampleTarpit d ∧ responseLenOf sampleTarpit d ≤ 7 ∧
      Handler sampleTarpit 13 (some 4) =
        some ({ status := 200, contentType := "text/html",
                contentLength := toString (responseLenOf sampleTarpit d) },
              some { conn := 4, remaining := responseLenOf sampleTarpit d })) ∧
    Set.BijOn (responseLenOf sampleTarpit) (Set.Ico 0 (lenBound sampleTarpit))
      (Set.Icc 3 7)) :=
  ⟨by decide, by decide,
    Handler_responseLen 2 "text/html" 1000000000 100000000 3 7 sampleTarpit 2 13 4
      (by decide) (by decide)⟩

/-- C10 (counterexample): on the `Tarpit` returned by `New 1 "text/html" 1 1 1 1`
a first `Close` succeeds and a second `Close` panics. -/
theorem second_Close_panics :
    ((New 1 "text/html" 1 1 1 1).1.bind Close).isSome = true ∧
    ((New 1 "text/html" 1 1 1 1).1.bind Close).bind Close = none := by
  decide

/-- C10 (amended): on a `Tarpit` returned by `New` the queue is open; the first
`Close` succeeds and changes nothing but the queue, which it closes; a second
`Close` panics (close of a closed channel). -/
theorem Close_once (workers : Int) (contentType : String)
    (period timeslice minResponseLen maxResponseLen : Int) (t : Tarpit) (k : Nat)
    (hNew : New workers contentType period timeslice minResponseLen maxResponseLen = (some t, k)) :
    t.toTimer.closed = false ∧
    Close t = some { t with toTimer := { t.toTimer with closed := true } } ∧
    Close { t with toTimer := { t.toTimer with closed := true } } = none := by
  obtain ⟨_, ht, _⟩ := New_eq_some hNew
  subst ht
  simp [Close, closeChan]

theorem Close_once_witness :
    New 2 "text/html" 1000000000 100000000 3 7 = (some sampleTarpit, 2) ∧
    (sampleTarpit.toTimer.closed = false ∧
    Close sampleTarpit
      = some { sampleTarpit with toTimer := { sampleTarpit.toTimer with closed := true } } ∧
    Close { sampleTarpit with toTimer := { sampleTarpit.toTimer with closed := true } } = none) :=
  ⟨by decide, Close_once 2 "text/html" 1000000000 100000000 3 7 sampleTarpit 2 (by decide)⟩

/-! ## Instances and counterexamples -/

/-- C1 (counterexample): a connection admitted with budget 2 whose first write
fails receives 0 bytes, although its bucket is drained once (and three times
once two more ticks have passed), and `min(1, 2) = 1`, `min(3, 2) = 2`. -/
theorem failed_write_fewer_bytes :
    (run { timeslices := [[]], nextslice := 0 }
        [Event.arrival { conn := 7, remaining := 2 } 0, failTick 0]).map
      (fun r => (bytesWritten 7 r.2, connTrace 7 r.2))
      = some (0, [some { n := 0, err := true }, none]) ∧
    (outcomes 1 0 7 0 [failTick 0]).length = 1 ∧
    (0 : Int) ≠ min 1 2 ∧
    (run { timeslices := [[]], nextslice := 0 }
        [Event.arrival { conn := 7, remaining := 2 } 0, failTick 0, okTick 0, okTick 0]).map
      (fun r => (bytesWritten 7 r.2, connTrace 7 r.2))
      = some (0, [some { n := 0, err := true }, none]) ∧
    (outcomes 1 0 7 0 [failTick 0, okTick 0, okTick 0]).length = 3 ∧
    (0 : Int) ≠ min 3 2 := by
  decide

theorem conn_lifecycle_witness :
    sampleRing.nextslice < sampleRing.timeslices.length ∧
    ({ conn := 7, remaining := 2 } : tarpitConn).conn ∉ ids (residents sampleRing) ∧
    ({ conn := 7, remaining := 2 } : tarpitConn).conn
      ∉ ids (arrivals [okTick 0, failTick 0, okTick 0]) ∧
    1 ≤ ({ conn := 7, remaining := 2 } : tarpitConn).remaining ∧
    ({ conn := 7, remaining := 2 } : tarpitConn).remaining ≤ maxInt64 ∧
    ∃ w1 effs os,
      run sampleRing (Event.arrival { conn := 7, remaining := 2 } 0
        :: [okTick 0, failTick 0, okTick 0]) = some (w1, effs) ∧
      os = outcomes sampleRing.timeslices.length (0 % sampleRing.timeslices.length)
            ({ conn := 7, remaining := 2 } : tarpitConn).conn sampleRing.nextslice
            [okTick 0, failTick 0, okTick 0] ∧
      connTrace ({ conn := 7, remaining := 2 } : tarpitConn).conn effs =
        (os.take (min os.length
            (closeAt ({ conn := 7, remaining := 2 } : tarpitConn).remaining os))).map some
          ++ (if closeAt ({ conn := 7, remaining := 2 } : tarpitConn).remaining os ≤ os.length
              then [none] else []) ∧
      (writtenConns effs).count ({ conn := 7, remaining := 2 } : tarpitConn).conn
        = min os.length (closeAt ({ conn := 7, remaining := 2 } : tarpitConn).remaining os) ∧
      (closedConns effs).count ({ conn := 7, remaining := 2 } : tarpitConn).conn
        = (if closeAt ({ conn := 7, remaining := 2 } : tarpitConn).remaining os ≤ os.length
           then 1 else 0) ∧
      bytesWritten ({ conn := 7, remaining := 2 } : tarpitConn).conn effs
        = ((os.take (min os.length
            (closeAt ({ conn := 7, remaining := 2 } : tarpitConn).remaining os))).map
              (fun o => o.n)).sum ∧
      ((∀ o ∈ os, o.n = 1 ∧ o.err = false) →
        bytesWritten ({ conn := 7, remaining := 2 } : tarpitConn).conn effs
          = min (os.length : Int) ({ conn := 7, remaining := 2 } : tarpitConn).remaining) :=
  ⟨by decide, by decide, by decide, by decide, by decide,
    conn_lifecycle sampleRing { conn := 7, remaining := 2 } 0 [okTick 0, failTick 0, okTick 0]
      (by decide) (by decide) (by decide) (by decide) (by decide)⟩

/-- C7 (counterexample): in Scenario B a connection placed in the bucket under
the cursor has received 1 byte and is still open after `numTimeslices = 10`
ticks; it has 4 bytes and is open after 40 ticks, and is closed, with 5 bytes,
at tick 41. -/
theorem one_byte_per_turn :
    ((New 1 "text/html" 1000000000 100000000 5 5).1.map (fun t => t.numTimeslices) = some 10) ∧
    ((((New 1 "text/html" 1000000000 100000000 5 5).1.bind (fun t => timerInit t 0)).bind
        (fun w0 => run w0 (Event.arrival { conn := 1, remaining := 5 } 0
                            :: (List.replicate 10 0).map okTick))).map
        (fun r => (bytesWritten 1 r.2, (closedConns r.2).count 1)) = some (1, 0)) ∧
    ((((New 1 "text/html" 1000000000 100000000 5 5).1.bind (fun t => timerInit t 0)).bind
        (fun w0 => run w0 (Event.arrival { conn := 1, remaining := 5 } 0
                            :: (List.replicate 40 0).map okTick))).map
        (fun r => (bytesWritten 1 r.2, (closedConns r.2).count 1)) = some (4, 0)) ∧
    ((((New 1 "text/html" 1000000000 100000000 5 5).1.bind (fun t => timerInit t 0)).bind
        (fun w0 => run w0 (Event.arrival { conn := 1, remaining := 5 } 0
                            :: (List.replicate 41 0).map okTick))).map
        (fun r => (bytesWritten 1 r.2, (closedConns r.2).count 1)) = some (5, 1)) := by
  decide

theorem scenarioB_witness :
    New 1 "text/html" 1000000000 100000000 5 5 = (some scenarioTarpit, 1) ∧
    (scenarioTarpit.numTimeslices = 10 ∧
    41 ≤ (7 % 10 + 10 - [0, 0, 0].length % 10) % 10 + 41 ∧
    (7 % 10 + 10 - [0, 0, 0].length % 10) % 10 + 41 ≤ 50 ∧
    ∃ w0 resp w1 effs,
      timerInit scenarioTarpit 0 = some w0 ∧
      Handler scenarioTarpit 0 (some 1) = some (resp, some { conn := 1, remaining := 5 }) ∧
      resp.contentLength = "5" ∧
      run w0 ([0, 0, 0].map okTick ++ Event.arrival { conn := 1, remaining := 5 } 7
                :: (List.replicate 45 0).map okTick) = some (w1, effs) ∧
      ((List.replicate 45 0).length < (7 % 10 + 10 - [0, 0, 0].length % 10) % 10 + 41 →
        bytesWritten 1 effs < 5 ∧ (closedConns effs).count 1 = 0) ∧
      ((7 % 10 + 10 - [0, 0, 0].length % 10) % 10 + 41 ≤ (List.replicate 45 0).length →
        connTrace 1 effs
          = List.replicate 5 (some { n := 1, err := false }) ++ [none] ∧
        bytesWritten 1 effs = 5 ∧ (closedConns effs).count 1 = 1)) :=
  ⟨by decide,
    scenarioB 1 "text/html" scenarioTarpit 1 0 0 7 1 [0, 0, 0] (List.replicate 45 0)
      (by decide)⟩

theorem cursor_round_robin_witness :
    1 ≤ sampleTarpit.numTimeslices ∧
    timerInit sampleTarpit 0 = some emptyRing ∧
    (emptyRing.nextslice = 0 ∧ emptyRing.timeslices.length = sampleTarpit.numTimeslices.toNat ∧
    ∃ w effs, run emptyRing longEvents = some (w, effs) ∧
      w.timeslices.length = sampleTarpit.numTimeslices.toNat ∧
      w.nextslice = ticks longEvents % sampleTarpit.numTimeslices.toNat ∧
      w.nextslice < sampleTarpit.numTimeslices.toNat ∧
      drainedBuckets emptyRing longEvents
        = (List.range (ticks longEvents)).map (fun k => k % sampleTarpit.numTimeslices.toNat) ∧
      ∀ k, k + sampleTarpit.numTimeslices.toNat ≤ ticks longEvents →
        ((drainedBuckets emptyRing longEvents).drop k).take sampleTarpit.numTimeslices.toNat
          = (List.range sampleTarpit.numTimeslices.toNat).map
              (fun i => (k + i) % sampleTarpit.numTimeslices.toNat) ∧
        (((drainedBuckets emptyRing longEvents).drop k).take
            sampleTarpit.numTimeslices.toNat).Perm
          (List.range sampleTarpit.numTimeslices.toNat)) :=
  ⟨by decide, by decide,
    cursor_round_robin sampleTarpit 0 emptyRing longEvents (by decide) (by decide)⟩

theorem tick_drains_one_bucket_witness :
    sampleRing.nextslice < sampleRing.timeslices.length ∧
    ∃ conns w1 effs, sampleRing.timeslices[sampleRing.nextslice]? = some conns ∧
      step sampleRing (Event.tick 0 (fun _ => { n := 1, err := false })) = some (w1, effs) ∧
      writtenConns effs = ids conns ∧
      (∀ e ∈ effs, e.conn ∈ ids conns) ∧
      w1.timeslices.length = sampleRing.timeslices.length ∧
      (∀ j, j ≠ sampleRing.nextslice → w1.timeslices[j]? = sampleRing.timeslices[j]?) ∧
      ((ids (residents sampleRing)).Nodup →
        ∀ j other, j ≠ sampleRing.nextslice → sampleRing.timeslices[j]? = some other →
          ∀ x ∈ other, ∀ e ∈ effs, e.conn ≠ x.conn) ∧
      w1.nextslice = (sampleRing.nextslice + 1) % sampleRing.timeslices.length :=
  ⟨by decide,
    tick_drains_one_bucket sampleRing 0 (fun _ => { n := 1, err := false }) (by decide)⟩

theorem drain_closes_all_witness :
    timerInit sampleTarpit 0 = some emptyRing ∧
    (ids (arrivals sampleEvents)).Nodup ∧
    ((1 ≤ sampleTarpit.numTimeslices → ∃ w effs, run emptyRing sampleEvents = some (w, effs)) ∧
    ∀ w effs, run emptyRing sampleEvents = some (w, effs) →
      timer sampleTarpit 0 sampleEvents = some ((drain w).1, effs ++ (drain w).2) ∧
      (drain w).2 = (residents w).map (fun tc => Effect.close tc.conn) ∧
      writtenConns (drain w).2 = [] ∧
      (drain w).1.timeslices = List.replicate w.timeslices.length [] ∧
      residents (drain w).1 = [] ∧
      (∀ c ∈ ids (residents w), (closedConns (drain w).2).count c = 1) ∧
      (∀ c ∈ closedConns effs, c ∉ closedConns (drain w).2) ∧
      (∀ c ∈ ids (arrivals sampleEvents),
        (closedConns (effs ++ (drain w).2)).count c = 1)) :=
  ⟨by decide, by decide,
    drain_closes_all sampleTarpit 0 emptyRing sampleEvents (by decide) (by decide)⟩

theorem ring_invariant_witness :
    New 2 "text/html" 1000000000 100000000 3 7 = (some sampleTarpit, 2) ∧
    (7 : Int) ≤ maxInt64 ∧
    timerInit sampleTarpit 0 = some emptyRing ∧
    (∀ tc ∈ arrivals sampleEvents,
      ∃ raw resp, Handler sampleTarpit raw (some tc.conn) = some (resp, some tc)) ∧
    (ids (arrivals sampleEvents)).Nodup ∧
    ((1 ≤ sampleTarpit.numTimeslices → ∃ w effs, run emptyRing sampleEvents = some (w, effs)) ∧
    ∀ w effs, run emptyRing sampleEvents = some (w, effs) →
      (∀ x ∈ residents w, 0 < x.remaining) ∧
      (ids (residents w)).Nodup ∧
      (∀ (i j : Nat) (bi bj : List tarpitConn), w.timeslices[i]? = some bi →
        w.timeslices[j]? = some bj →
        ∀ x ∈ bi, ∀ y ∈ bj, x.conn = y.conn → i = j) ∧
      (∀ raw wr w1 effs1 conns, step w (Event.tick raw wr) = some (w1, effs1) →
        w.timeslices[w.nextslice]? = some conns →
        ∀ x ∈ conns,
          (x.conn ∉ ids (residents w1) ↔
            (x.remaining - 1 ≤ 0 ∨ (wr x.conn).n = 0 ∨ (wr x.conn).err = true)))) :=
  have hH : ∀ tc ∈ arrivals sampleEvents,
      ∃ raw resp, Handler sampleTarpit raw (some tc.conn) = some (resp, some tc) := by
    intro tc htc
    have hcases : tc = { conn := 1, remaining := 5 } ∨ tc = { conn := 2, remaining := 4 }
        ∨ tc = { conn := 3, remaining := 3 } := by
      simpa [arrivals, sampleEvents, okTick, failTick] using htc
    rcases hcases with rfl | rfl | rfl
    · exact ⟨2, { status := 200, contentType := "text/html", contentLength := "5" }, by decide⟩
    · exact ⟨1, { status := 200, contentType := "text/html", contentLength := "4" }, by decide⟩
    · exact ⟨0, { status := 200, contentType := "text/html", contentLength := "3" }, by decide⟩
  ⟨by decide, by decide, by decide, hH, by decide,
    ring_invariant 2 "text/html" 1000000000 100000000 3 7 sampleTarpit 2 0 emptyRing
      sampleEvents (by decide) (by decide) (by decide) hH (by decide)⟩
end HttpTarpit
